import Mathlib

/-!
Verification of the folder-consolidation tool.

The repository consists of three Python scripts:

* `1_cleanup_empty_folders.py` — `EmptyFolderCleaner`: walks a directory tree,
  classifies directories that contain no files anywhere in their subtree as
  empty, and deletes them deepest-first.
* `consolidate_auto.py` and `folder_consolidator.py` — `FolderConsolidator`:
  merges source trees into a master directory, skipping content-identical
  files (by digest), renaming colliding files and directories with `_2`,
  `_3`, … suffixes, and counting everything in a statistics record.

This file gives a shallow embedding of those programs and proves / refutes
the specification claims about them.

Modelling conventions:
* names are `List Char` (the strings Python manipulates);
* a directory is an association list from names to entries; the filesystem
  operations (`exists`, `mkdir`, `copy2`, `rmdir`) become operations on that
  list;
* a file carries a `readable` flag; hashing an unreadable file fails
  (`get_file_hash` returns `none`), and copying it raises (caught and
  counted as an error), mirroring the `try/except` blocks in the source;
* a directory carries an `accessible` flag; iterating an inaccessible
  directory raises (caught and counted as an error);
* the content digest is modelled as the file content itself, i.e. a perfect
  digest — the code compares MD5 digests for equality only, and no claim
  depends on hash collisions.
-/

namespace FC

/-- File and directory names, modelled as the list of characters of the
string the Python code manipulates. -/
abbrev Name := List Char

/-- A path below some root: the list of name segments. -/
abbrev FPath := List Name

/-! ### Decimal rendering of the rename counter

`find_available_name` builds `f"{stem}_{counter}{suffix}"`; we model the
decimal rendering of `counter` and prove it injective via an explicit
parse-back function. -/

/-- Decimal digit to character, as produced by Python string formatting. -/
def digitChar : Nat → Char
  | 0 => '0'
  | 1 => '1'
  | 2 => '2'
  | 3 => '3'
  | 4 => '4'
  | 5 => '5'
  | 6 => '6'
  | 7 => '7'
  | 8 => '8'
  | 9 => '9'
  | _ => '*'

/-- Fuel-driven most-significant-first decimal rendering of a natural. -/
def natCharsAux : Nat → Nat → List Char
  | 0, _ => []
  | _ + 1, 0 => []
  | fuel + 1, n + 1 =>
      natCharsAux fuel ((n + 1) / 10) ++ [digitChar ((n + 1) % 10)]

/-- Decimal rendering of a natural number, like Python `str(n)`. -/
def natChars (n : Nat) : List Char := if n = 0 then ['0'] else natCharsAux n n

/-- Numeric value of a digit character. -/
def charVal (c : Char) : Nat := c.toNat - 48

/-- Parse a digit string back to a natural number. -/
def charsToNat (l : List Char) : Nat := l.foldl (fun a c => a * 10 + charVal c) 0

theorem charVal_digitChar : ∀ d, d < 10 → charVal (digitChar d) = d := by decide

theorem charsToNat_append_singleton (xs : List Char) (c : Char) :
    charsToNat (xs ++ [c]) = charsToNat xs * 10 + charVal c := by
  simp [charsToNat, List.foldl_append]

theorem charsToNat_natCharsAux : ∀ fuel n, n ≤ fuel →
    charsToNat (natCharsAux fuel n) = n := by
  intro fuel
  induction fuel with
  | zero =>
    intro n hn
    interval_cases n
    simp [natCharsAux, charsToNat]
  | succ fuel ih =>
    intro n hn
    match n with
    | 0 => simp [natCharsAux, charsToNat]
    | m + 1 =>
      have hdiv : (m + 1) / 10 ≤ fuel := by omega
      have hmod : (m + 1) % 10 < 10 := Nat.mod_lt _ (by omega)
      rw [natCharsAux, charsToNat_append_singleton, ih _ hdiv,
        charVal_digitChar _ hmod]
      omega

theorem charsToNat_natChars (n : Nat) : charsToNat (natChars n) = n := by
  by_cases h : n = 0
  · subst h; decide
  · rw [natChars, if_neg h]
    exact charsToNat_natCharsAux n n le_rfl

theorem natChars_injective : Function.Injective natChars := by
  intro a b h
  have := congrArg charsToNat h
  rwa [charsToNat_natChars, charsToNat_natChars] at this

/-! ### Stem / suffix splitting, following `pathlib`

`PurePath.suffix` is `name[i:]` when `i = name.rfind('.')` satisfies
`0 < i < len(name) - 1`, else `""`; `stem` is the complementary part. -/

/-- Index of the last occurrence of a dot in a name, if any
(Python `name.rfind('.')` restricted to the found case). -/
def lastDot : List Char → Option Nat
  | [] => none
  | c :: cs =>
    match lastDot cs with
    | some i => some (i + 1)
    | none => if c = '.' then some 0 else none

/-- Python `pathlib` suffix of a name: the extension including the dot,
present only when the last dot is neither leading nor trailing. -/
def pySuffix (name : Name) : Name :=
  match lastDot name with
  | some i => if 0 < i ∧ i + 1 < name.length then name.drop i else []
  | none => []

/-- Python `pathlib` stem of a name: the name minus `pySuffix`. -/
def pyStem (name : Name) : Name :=
  match lastDot name with
  | some i => if 0 < i ∧ i + 1 < name.length then name.take i else name
  | none => name

/-- The candidate sibling name `f"{stem}_{c}{sfx}"` tried by
`find_available_name` for counter value `c`. -/
def candName (stem sfx : Name) (c : Nat) : Name :=
  stem ++ '_' :: (natChars c ++ sfx)

theorem candName_injective (stem sfx : Name) :
    Function.Injective (candName stem sfx) := by
  intro a b h
  unfold candName at h
  have h1 := List.append_cancel_left h
  have h2 := List.cons_injective h1
  have h3 := List.append_cancel_right h2
  exact natChars_injective h3

/-! ### Association-list directory operations -/

/-- First entry with the given name (filesystem name lookup). -/
def lookupKey {α : Type} : List (Name × α) → Name → Option α
  | [], _ => none
  | (m, e) :: rest, n => if m = n then some e else lookupKey rest n

/-- Remove the entry with the given name (first occurrence). -/
def eraseKey {α : Type} : List (Name × α) → Name → List (Name × α)
  | [], _ => []
  | (m, e) :: rest, n => if m = n then rest else (m, e) :: eraseKey rest n

/-- Replace the value of the entry with the given name (first occurrence). -/
def replaceKey {α : Type} : List (Name × α) → Name → α → List (Name × α)
  | [], _, _ => []
  | (m, e) :: rest, n, v =>
    if m = n then (m, v) :: rest else (m, e) :: replaceKey rest n v

/-- The names present in a directory listing. -/
def keysOf {α : Type} (l : List (Name × α)) : List Name := l.map Prod.fst

theorem lookupKey_append {α : Type} (l₁ l₂ : List (Name × α)) (n : Name) :
    lookupKey (l₁ ++ l₂) n =
      (lookupKey l₁ n).orElse (fun _ => lookupKey l₂ n) := by
  induction l₁ with
  | nil => simp [lookupKey]
  | cons p rest ih =>
    by_cases h : p.1 = n
    · simp [lookupKey, h, Option.orElse]
    · simpa [lookupKey, h] using ih

theorem lookupKey_append_left {α : Type} {l₁ : List (Name × α)} {n : Name}
    {v : α} (h : lookupKey l₁ n = some v) (l₂ : List (Name × α)) :
    lookupKey (l₁ ++ l₂) n = some v := by
  rw [lookupKey_append, h]; rfl

theorem lookupKey_isSome_iff_mem {α : Type} (l : List (Name × α)) (n : Name) :
    (lookupKey l n).isSome = true ↔ n ∈ keysOf l := by
  induction l with
  | nil => simp [lookupKey, keysOf]
  | cons p rest ih =>
    obtain ⟨m, v⟩ := p
    simp only [keysOf, List.map_cons] at *
    by_cases h : m = n
    · subst h
      rw [lookupKey, if_pos rfl]
      constructor
      · intro _
        exact List.mem_cons_self _ _
      · intro _
        rfl
    · rw [lookupKey, if_neg h]
      rw [ih]
      constructor
      · intro hm
        exact List.mem_cons_of_mem _ hm
      · intro hm
        rcases List.mem_cons.mp hm with h1 | h2
        · exact absurd h1.symm h
        · exact h2

theorem lookupKey_eq_none_iff {α : Type} (l : List (Name × α)) (n : Name) :
    lookupKey l n = none ↔ n ∉ keysOf l := by
  rw [← lookupKey_isSome_iff_mem]
  cases lookupKey l n <;> simp

/-! ### Filesystem entries

A file carries the content bytes and a readability flag (unreadable models
"every attempt to open this file for reading raises").  A directory carries
its listing and an accessibility flag (inaccessible models "iterating this
directory raises `PermissionError`"). -/

inductive FSEntry : Type where
  | file (readable : Bool) (content : List Nat)
  | dir (accessible : Bool) (children : List (Name × FSEntry))

/-- A directory listing: entries keyed by name. -/
abbrev Dir := List (Name × FSEntry)

/-- The `self.stats` dictionary of `FolderConsolidator`
(`consolidate_auto.py` lines 46-53, `folder_consolidator.py` lines 42-49). -/
structure Stats : Type where
  folders_copied : Nat
  folders_renamed : Nat
  files_copied : Nat
  files_renamed : Nat
  files_skipped : Nat
  errors : Nat
deriving DecidableEq

/-- The all-zero initial statistics record. -/
def Stats.zero : Stats := ⟨0, 0, 0, 0, 0, 0⟩

/-! ### The merge engine (`FolderConsolidator`) -/

/-- `FolderConsolidator.get_file_hash` (`consolidate_auto.py` lines 63-71,
`folder_consolidator.py` lines 62-72): streams the file through MD5 and
returns the digest, or `None` when reading fails.  The digest is modelled
as the content itself; hashing an unreadable file or a directory fails. -/
def get_file_hash : FSEntry → Option (List Nat)
  | FSEntry.file true c => some c
  | FSEntry.file false _ => none
  | FSEntry.dir _ _ => none

/-- `FolderConsolidator.are_files_identical` (`consolidate_auto.py`
lines 90-93, `folder_consolidator.py` lines 94-105): true iff both digests
compute successfully and are equal. -/
def are_files_identical (e₁ e₂ : FSEntry) : Bool :=
  match get_file_hash e₁, get_file_hash e₂ with
  | some h₁, some h₂ => h₁ = h₂
  | _, _ => false

/-- The `counter = 2; while True: ...` loop of `find_available_name`,
with enough fuel to be total (the loop terminates because the directory
holds finitely many names; `findFrom_spec` below proves the fuel
`dest.length + 1` always suffices). -/
def findFrom (dest : Dir) (stem sfx : Name) : Nat → Nat → Name
  | c, 0 => candName stem sfx c
  | c, fuel + 1 =>
    if (lookupKey dest (candName stem sfx c)).isSome then
      findFrom dest stem sfx (c + 1) fuel
    else candName stem sfx c

/-- `FolderConsolidator.find_available_name` (`consolidate_auto.py`
lines 73-88, `folder_consolidator.py` lines 74-92): returns the target
name if unused, otherwise tries `f"{stem}_{counter}{suffix}"` for
`counter = 2, 3, …`; for folders the `pathlib` suffix is dropped
(`suffix = path_obj.suffix if not is_folder else ""`, with
`stem = path_obj.stem` in both cases). -/
def find_available_name (dest : Dir) (target : Name) (is_folder : Bool) : Name :=
  if (lookupKey dest target).isSome = false then target
  else
    findFrom dest (pyStem target) (if is_folder then [] else pySuffix target)
      2 (dest.length + 1)

/-- `FolderConsolidator.copy_file` (`consolidate_auto.py` lines 95-118,
`folder_consolidator.py` lines 107-145): if the destination name is free,
copy there; if taken by an identical file, skip; if taken by different
content, copy to the sibling produced by `find_available_name`.  A copy of
an unreadable source raises inside the `try`, which is caught and counted
as an error (`shutil.copy2` opens the source first, so no destination
entry is created). -/
def copy_file (src : FSEntry) (destName : Name) (dest : Dir) (st : Stats) :
    Dir × Stats :=
  match lookupKey dest destName with
  | none =>
    match src with
    | FSEntry.file true c =>
      (dest ++ [(destName, FSEntry.file true c)],
        { st with files_copied := st.files_copied + 1 })
    | _ => (dest, { st with errors := st.errors + 1 })
  | some e =>
    if are_files_identical src e then
      (dest, { st with files_skipped := st.files_skipped + 1 })
    else
      match src with
      | FSEntry.file true c =>
        (dest ++ [(find_available_name dest destName false, FSEntry.file true c)],
          { st with files_renamed := st.files_renamed + 1 })
      | _ => (dest, { st with errors := st.errors + 1 })

mutual

/-- `FolderConsolidator.copy_folder_tree` for an existing source directory
(`consolidate_auto.py` lines 120-142, `folder_consolidator.py`
lines 147-202): resolve the destination name (renaming on collision and
incrementing `folders_renamed`), `mkdir` the directory and increment
`folders_copied`, then copy the children into the fresh directory.
Iterating an inaccessible source directory raises, which the surrounding
`try/except` converts into one error with the children unprocessed. -/
def copy_folder_tree (srcName : Name) (accessible : Bool) (srcChildren : Dir)
    (destParent : Dir) (st : Stats) : Dir × Stats :=
  let destName :=
    if (lookupKey destParent srcName).isSome then
      find_available_name destParent srcName true
    else srcName
  let st₁ :=
    if (lookupKey destParent srcName).isSome then
      { st with folders_renamed := st.folders_renamed + 1 }
    else st
  let st₂ := { st₁ with folders_copied := st₁.folders_copied + 1 }
  if accessible then
    match copy_items srcChildren [] st₂ with
    | (newCs, st₃) => (destParent ++ [(destName, FSEntry.dir true newCs)], st₃)
  else
    (destParent ++ [(destName, FSEntry.dir true [])],
      { st₂ with errors := st₂.errors + 1 })
termination_by sizeOf srcChildren + 1

/-- The iteration `for item in folder.iterdir(): ...` shared by
`copy_folder_tree` (`consolidate_auto.py` lines 133-138,
`folder_consolidator.py` lines 183-191) and `consolidate`
(`consolidate_auto.py` lines 158-166): files go through `copy_file`,
subdirectories recurse through `copy_folder_tree`. -/
def copy_items (items : Dir) (dest : Dir) (st : Stats) : Dir × Stats :=
  match items with
  | [] => (dest, st)
  | (n, FSEntry.file r c) :: rest =>
    match copy_file (FSEntry.file r c) n dest st with
    | (dest₂, st₂) => copy_items rest dest₂ st₂
  | (n, FSEntry.dir a cs) :: rest =>
    match copy_folder_tree n a cs dest st with
    | (dest₂, st₂) => copy_items rest dest₂ st₂
termination_by sizeOf items

end

theorem copy_items_nil (dest : Dir) (st : Stats) :
    copy_items [] dest st = (dest, st) := by
  rw [copy_items]

theorem copy_items_cons_file (n : Name) (r : Bool) (c : List Nat) (rest : Dir)
    (dest : Dir) (st : Stats) :
    copy_items ((n, FSEntry.file r c) :: rest) dest st =
      (match copy_file (FSEntry.file r c) n dest st with
       | (dest₂, st₂) => copy_items rest dest₂ st₂) := by
  rw [copy_items]

theorem copy_items_cons_dir (n : Name) (a : Bool) (cs rest : Dir)
    (dest : Dir) (st : Stats) :
    copy_items ((n, FSEntry.dir a cs) :: rest) dest st =
      (match copy_folder_tree n a cs dest st with
       | (dest₂, st₂) => copy_items rest dest₂ st₂) := by
  rw [copy_items]

theorem copy_items_cons_file' (n : Name) (r : Bool) (c : List Nat) (rest : Dir)
    (dest : Dir) (st : Stats) :
    copy_items ((n, FSEntry.file r c) :: rest) dest st =
      copy_items rest (copy_file (FSEntry.file r c) n dest st).1
        (copy_file (FSEntry.file r c) n dest st).2 := by
  rw [copy_items_cons_file]

theorem copy_items_cons_dir' (n : Name) (a : Bool) (cs rest : Dir)
    (dest : Dir) (st : Stats) :
    copy_items ((n, FSEntry.dir a cs) :: rest) dest st =
      copy_items rest (copy_folder_tree n a cs dest st).1
        (copy_folder_tree n a cs dest st).2 := by
  rw [copy_items_cons_dir]

/-! ### Structural counters and predicates over trees -/

/-- Does any file occur anywhere in the forest?  (`is_folder_empty` of
`1_cleanup_empty_folders.py` lines 47-62 reports a directory empty iff no
file occurs in its subtree.) -/
def containsFileList (cs : Dir) : Bool :=
  match cs with
  | [] => false
  | (_, FSEntry.file _ _) :: _ => true
  | (_, FSEntry.dir _ cs') :: rest => containsFileList cs' || containsFileList rest
termination_by sizeOf cs

/-- Does any file occur in the subtree rooted at this entry (a file counts
as containing itself)? -/
def containsFile : FSEntry → Bool
  | FSEntry.file _ _ => true
  | FSEntry.dir _ cs => containsFileList cs

/-- Every directory in the forest is accessible. -/
def allAccessibleList (cs : Dir) : Bool :=
  match cs with
  | [] => true
  | (_, FSEntry.file _ _) :: rest => allAccessibleList rest
  | (_, FSEntry.dir a cs') :: rest => a && allAccessibleList cs' && allAccessibleList rest
termination_by sizeOf cs

/-- Every directory in the subtree (including the entry itself) is
accessible. -/
def allAccessible : FSEntry → Bool
  | FSEntry.file _ _ => true
  | FSEntry.dir a cs => a && allAccessibleList cs

/-- A well-formed real-world forest: every file readable, every directory
accessible, and sibling names distinct at every level. -/
def wfList (cs : Dir) : Bool :=
  match cs with
  | [] => true
  | (n, FSEntry.file r _) :: rest =>
    r && !(decide (n ∈ keysOf rest)) && wfList rest
  | (n, FSEntry.dir a cs') :: rest =>
    a && !(decide (n ∈ keysOf rest)) && wfList cs' && wfList rest
termination_by sizeOf cs

/-- Sibling names are distinct at every level of the forest. -/
def nodupKeysList (cs : Dir) : Bool :=
  match cs with
  | [] => true
  | (n, FSEntry.file _ _) :: rest =>
    !(decide (n ∈ keysOf rest)) && nodupKeysList rest
  | (n, FSEntry.dir _ cs') :: rest =>
    !(decide (n ∈ keysOf rest)) && nodupKeysList cs' && nodupKeysList rest
termination_by sizeOf cs

/-- Number of files anywhere in the forest. -/
def countFilesList (cs : Dir) : Nat :=
  match cs with
  | [] => 0
  | (_, FSEntry.file _ _) :: rest => 1 + countFilesList rest
  | (_, FSEntry.dir _ cs') :: rest => countFilesList cs' + countFilesList rest
termination_by sizeOf cs

/-- Number of directories anywhere in the forest. -/
def countDirsList (cs : Dir) : Nat :=
  match cs with
  | [] => 0
  | (_, FSEntry.file _ _) :: rest => countDirsList rest
  | (_, FSEntry.dir _ cs') :: rest => 1 + countDirsList cs' + countDirsList rest
termination_by sizeOf cs

/-- Number of directories for which the merge walk performs the `mkdir`
step: every reachable directory counts, and the children of an
inaccessible directory are never visited. -/
def processedDirsList (cs : Dir) : Nat :=
  match cs with
  | [] => 0
  | (_, FSEntry.file _ _) :: rest => processedDirsList rest
  | (_, FSEntry.dir true cs') :: rest =>
    1 + processedDirsList cs' + processedDirsList rest
  | (_, FSEntry.dir false _) :: rest => 1 + processedDirsList rest
termination_by sizeOf cs

/-- Entry lookup along a path of name segments. -/
def getAt : FPath → FSEntry → Option FSEntry
  | [], e => some e
  | _ :: _, FSEntry.file _ _ => none
  | n :: p, FSEntry.dir _ cs =>
    match lookupKey cs n with
    | some e₂ => getAt p e₂
    | none => none

theorem keysOf_cons {α : Type} (n : Name) (e : α) (rest : List (Name × α)) :
    keysOf ((n, e) :: rest) = n :: keysOf rest := rfl

/-! ### Wholesale copying of a well-formed forest

Copying a well-formed forest into a destination whose listing is disjoint
from the forest's top-level names reproduces the forest verbatim at the end
of the destination, incrementing exactly `files_copied` and
`folders_copied`. -/

/-- Statistics after copying a clean forest wholesale. -/
def addCopied (st : Stats) (items : Dir) : Stats :=
  { st with
      files_copied := st.files_copied + countFilesList items,
      folders_copied := st.folders_copied + countDirsList items }

theorem copy_items_wf (items : Dir) (dest : Dir) (st : Stats)
    (hwf : wfList items = true)
    (hdisj : ∀ m, m ∈ keysOf items → lookupKey dest m = none) :
    copy_items items dest st = (dest ++ items, addCopied st items) := by
  match items with
  | [] =>
    rw [copy_items_nil]
    obtain ⟨s₁, s₂, s₃, s₄, s₅, s₆⟩ := st
    simp [addCopied, countFilesList, countDirsList]
  | (n, FSEntry.file r c) :: rest =>
    rw [wfList] at hwf
    simp only [Bool.and_eq_true] at hwf
    obtain ⟨⟨hr, hnd⟩, hrest⟩ := hwf
    subst hr
    simp only [Bool.not_eq_true', decide_eq_false_iff_not] at hnd
    have hfree : lookupKey dest n = none := hdisj n (by
      rw [keysOf_cons]; exact List.mem_cons_self _ _)
    rw [copy_items_cons_file']
    have hcf : copy_file (FSEntry.file true c) n dest st =
        (dest ++ [(n, FSEntry.file true c)],
          { st with files_copied := st.files_copied + 1 }) := by
      unfold copy_file
      rw [hfree]
    rw [hcf]
    have hdisj' : ∀ m, m ∈ keysOf rest →
        lookupKey (dest ++ [(n, FSEntry.file true c)]) m = none := by
      intro m hm
      have h1 : lookupKey dest m = none := hdisj m (by
        rw [keysOf_cons]; exact List.mem_cons_of_mem _ hm)
      have hne : ¬ (n = m) := fun he => hnd (he ▸ hm)
      rw [lookupKey_append, h1]
      simp [lookupKey, hne]
    rw [copy_items_wf rest _ _ hrest hdisj']
    obtain ⟨s₁, s₂, s₃, s₄, s₅, s₆⟩ := st
    simp [addCopied, countFilesList, countDirsList]
    omega
  | (n, FSEntry.dir a cs) :: rest =>
    rw [wfList] at hwf
    simp only [Bool.and_eq_true] at hwf
    obtain ⟨⟨⟨ha, hnd⟩, hcs⟩, hrest⟩ := hwf
    subst ha
    simp only [Bool.not_eq_true', decide_eq_false_iff_not] at hnd
    have hfree : lookupKey dest n = none := hdisj n (by
      rw [keysOf_cons]; exact List.mem_cons_self _ _)
    rw [copy_items_cons_dir']
    have hft : copy_folder_tree n true cs dest st =
        (dest ++ [(n, FSEntry.dir true cs)],
          addCopied { st with folders_copied := st.folders_copied + 1 } cs) := by
      unfold copy_folder_tree
      rw [hfree]
      simp only [Option.isSome_none, Bool.false_eq_true, if_false, if_true]
      rw [copy_items_wf cs [] _ hcs (fun m _ => rfl)]
      simp
    rw [hft]
    have hdisj' : ∀ m, m ∈ keysOf rest →
        lookupKey (dest ++ [(n, FSEntry.dir true cs)]) m = none := by
      intro m hm
      have h1 : lookupKey dest m = none := hdisj m (by
        rw [keysOf_cons]; exact List.mem_cons_of_mem _ hm)
      have hne : ¬ (n = m) := fun he => hnd (he ▸ hm)
      rw [lookupKey_append, h1]
      simp [lookupKey, hne]
    rw [copy_items_wf rest _ _ hrest hdisj']
    obtain ⟨s₁, s₂, s₃, s₄, s₅, s₆⟩ := st
    simp [addCopied, countFilesList, countDirsList]
    omega
termination_by sizeOf items

/-! ### The merge engine only appends fresh entries to a listing -/

theorem copy_file_dest (src : FSEntry) (n : Name) (dest : Dir) (st : Stats) :
    ∃ news, (copy_file src n dest st).1 = dest ++ news := by
  cases hl : lookupKey dest n with
  | none =>
    match src with
    | FSEntry.file true c =>
      exact ⟨[(n, FSEntry.file true c)], by simp [copy_file, hl]⟩
    | FSEntry.file false c => exact ⟨[], by simp [copy_file, hl]⟩
    | FSEntry.dir a cs => exact ⟨[], by simp [copy_file, hl]⟩
  | some e =>
    by_cases hid : are_files_identical src e = true
    · exact ⟨[], by simp [copy_file, hl, hid]⟩
    · match src with
      | FSEntry.file true c =>
        exact ⟨[(find_available_name dest n false, FSEntry.file true c)],
          by simp [copy_file, hl, hid]⟩
      | FSEntry.file false c => exact ⟨[], by simp [copy_file, hl, hid]⟩
      | FSEntry.dir a cs => exact ⟨[], by simp [copy_file, hl, hid]⟩

theorem copy_folder_tree_dest (n : Name) (a : Bool) (cs dest : Dir) (st : Stats) :
    ∃ m newCs,
      (copy_folder_tree n a cs dest st).1 = dest ++ [(m, FSEntry.dir true newCs)] := by
  unfold copy_folder_tree
  cases a
  · exact ⟨_, _, rfl⟩
  · exact ⟨_, _, rfl⟩

theorem copy_items_dest (items : Dir) : ∀ (dest : Dir) (st : Stats),
    ∃ news, (copy_items items dest st).1 = dest ++ news := by
  induction items with
  | nil =>
    intro dest st
    exact ⟨[], by simp [copy_items_nil]⟩
  | cons p rest ih =>
    intro dest st
    obtain ⟨n, e⟩ := p
    cases e with
    | file r c =>
      rw [copy_items_cons_file']
      obtain ⟨n₁, h₁⟩ := copy_file_dest (FSEntry.file r c) n dest st
      rw [h₁]
      obtain ⟨n₂, h₂⟩ := ih (dest ++ n₁) _
      exact ⟨n₁ ++ n₂, by rw [h₂, List.append_assoc]⟩
    | dir a cs =>
      rw [copy_items_cons_dir']
      obtain ⟨m, ncs, h₁⟩ := copy_folder_tree_dest n a cs dest st
      rw [h₁]
      obtain ⟨n₂, h₂⟩ := ih (dest ++ [(m, FSEntry.dir true ncs)]) _
      exact ⟨[(m, FSEntry.dir true ncs)] ++ n₂, by rw [h₂, List.append_assoc]⟩

theorem getAt_file_append (news : Dir) (p : FPath) (b : Bool) (d : Dir)
    (r : Bool) (c : List Nat)
    (h : getAt p (FSEntry.dir b d) = some (FSEntry.file r c)) :
    getAt p (FSEntry.dir b (d ++ news)) = some (FSEntry.file r c) := by
  cases p with
  | nil =>
    rw [getAt] at h
    simp at h
  | cons n rest =>
    rw [getAt] at h ⊢
    cases hl : lookupKey d n with
    | none => rw [hl] at h; simp at h
    | some e₀ =>
      rw [hl] at h
      rw [lookupKey_append_left hl]
      exact h

/-! ### Accounting for the directory-create counter -/

/-- The statistics after the collision check and `mkdir` of
`copy_folder_tree`, before the children are visited. -/
def mkdirStats (collide : Bool) (st : Stats) : Stats :=
  let st₁ :=
    if collide then { st with folders_renamed := st.folders_renamed + 1 } else st
  { st₁ with folders_copied := st₁.folders_copied + 1 }

theorem copy_folder_tree_snd (n : Name) (a : Bool) (cs dest : Dir) (st : Stats) :
    (copy_folder_tree n a cs dest st).2 =
      if a then
        (copy_items cs [] (mkdirStats (lookupKey dest n).isSome st)).2
      else
        { mkdirStats (lookupKey dest n).isSome st with
            errors := (mkdirStats (lookupKey dest n).isSome st).errors + 1 } := by
  unfold copy_folder_tree mkdirStats
  cases a <;> simp

theorem mkdirStats_folders_copied (b : Bool) (st : Stats) :
    (mkdirStats b st).folders_copied = st.folders_copied + 1 := by
  cases b <;> simp [mkdirStats]

theorem mkdirStats_folders_renamed (b : Bool) (st : Stats) :
    (mkdirStats b st).folders_renamed =
      st.folders_renamed + (if b then 1 else 0) := by
  cases b <;> simp [mkdirStats]

theorem copy_file_folders (src : FSEntry) (n : Name) (dest : Dir) (st : Stats) :
    (copy_file src n dest st).2.folders_copied = st.folders_copied ∧
    (copy_file src n dest st).2.folders_renamed = st.folders_renamed := by
  cases hl : lookupKey dest n with
  | none =>
    match src with
    | FSEntry.file true c => exact ⟨by simp [copy_file, hl], by simp [copy_file, hl]⟩
    | FSEntry.file false c => exact ⟨by simp [copy_file, hl], by simp [copy_file, hl]⟩
    | FSEntry.dir a cs => exact ⟨by simp [copy_file, hl], by simp [copy_file, hl]⟩
  | some e =>
    by_cases hid : are_files_identical src e = true
    · exact ⟨by simp [copy_file, hl, hid], by simp [copy_file, hl, hid]⟩
    · match src with
      | FSEntry.file true c =>
        exact ⟨by simp [copy_file, hl, hid], by simp [copy_file, hl, hid]⟩
      | FSEntry.file false c =>
        exact ⟨by simp [copy_file, hl, hid], by simp [copy_file, hl, hid]⟩
      | FSEntry.dir a cs =>
        exact ⟨by simp [copy_file, hl, hid], by simp [copy_file, hl, hid]⟩

theorem copy_items_folders_copied (items : Dir) (dest : Dir) (st : Stats) :
    (copy_items items dest st).2.folders_copied =
      st.folders_copied + processedDirsList items := by
  match items with
  | [] =>
    rw [copy_items_nil, processedDirsList]
    simp
  | (n, FSEntry.file r c) :: rest =>
    rw [copy_items_cons_file', processedDirsList,
      copy_items_folders_copied rest _ _,
      (copy_file_folders (FSEntry.file r c) n dest st).1]
  | (n, FSEntry.dir a cs) :: rest =>
    rw [copy_items_cons_dir', copy_items_folders_copied rest _ _,
      copy_folder_tree_snd]
    cases a
    · rw [if_neg (by simp), processedDirsList]
      simp [mkdirStats_folders_copied]
      omega
    · rw [if_pos rfl, processedDirsList,
        copy_items_folders_copied cs [] _, mkdirStats_folders_copied]
      omega
termination_by sizeOf items

theorem copy_items_renamed_mono (items : Dir) (dest : Dir) (st : Stats) :
    st.folders_renamed ≤ (copy_items items dest st).2.folders_renamed := by
  match items with
  | [] =>
    rw [copy_items_nil]
  | (n, FSEntry.file r c) :: rest =>
    rw [copy_items_cons_file']
    have h := copy_items_renamed_mono rest (copy_file (FSEntry.file r c) n dest st).1
      (copy_file (FSEntry.file r c) n dest st).2
    rw [(copy_file_folders (FSEntry.file r c) n dest st).2] at h
    exact h
  | (n, FSEntry.dir a cs) :: rest =>
    rw [copy_items_cons_dir']
    have h := copy_items_renamed_mono rest (copy_folder_tree n a cs dest st).1
      (copy_folder_tree n a cs dest st).2
    refine le_trans ?_ h
    rw [copy_folder_tree_snd]
    cases a
    · rw [if_neg (by simp)]
      have h₃ := mkdirStats_folders_renamed (lookupKey dest n).isSome st
      simp only []
      omega
    · rw [if_pos rfl]
      have h₂ := copy_items_renamed_mono cs []
        (mkdirStats (lookupKey dest n).isSome st)
      have h₃ := mkdirStats_folders_renamed (lookupKey dest n).isSome st
      omega
termination_by sizeOf items

/-! ### A second identical pass skips every file -/

theorem copy_items_second_skip : ∀ (items : Dir) (m : Dir) (st : Stats),
    (∀ q, q ∈ items → ∃ c, q.2 = FSEntry.file true c ∧
      lookupKey m q.1 = some (FSEntry.file true c)) →
    copy_items items m st =
      (m, { st with files_skipped := st.files_skipped + items.length })
  | [], m, st, _ => by
    rw [copy_items_nil]
    obtain ⟨s₁, s₂, s₃, s₄, s₅, s₆⟩ := st
    simp
  | (n, e) :: rest, m, st, h => by
    obtain ⟨c, he, hm⟩ := h (n, e) (List.mem_cons_self _ _)
    simp only at he
    subst he
    rw [copy_items_cons_file']
    have hcf : copy_file (FSEntry.file true c) n m st =
        (m, { st with files_skipped := st.files_skipped + 1 }) := by
      simp only at hm
      simp [copy_file, hm, are_files_identical, get_file_hash]
    rw [hcf]
    rw [copy_items_second_skip rest m _
      (fun q hq => h q (List.mem_cons_of_mem _ hq))]
    obtain ⟨s₁, s₂, s₃, s₄, s₅, s₆⟩ := st
    simp
    omega

/-! ### Correctness of the rename loop -/

theorem findFrom_spec (dest : Dir) (stem sfx : Name) :
    ∀ fuel c,
      (∃ j, j < fuel ∧
         (lookupKey dest (candName stem sfx (c + j))).isSome = false) →
      ∃ j, j < fuel ∧
        findFrom dest stem sfx c fuel = candName stem sfx (c + j) ∧
        lookupKey dest (candName stem sfx (c + j)) = none ∧
        ∀ i, i < j → (lookupKey dest (candName stem sfx (c + i))).isSome = true := by
  intro fuel
  induction fuel with
  | zero =>
    intro c h
    obtain ⟨j, hj, _⟩ := h
    omega
  | succ fuel ih =>
    intro c h
    by_cases h0 : (lookupKey dest (candName stem sfx c)).isSome = true
    · obtain ⟨j, hj, hfree⟩ := h
      have hj0 : j ≠ 0 := by
        intro he
        rw [he, Nat.add_zero] at hfree
        rw [h0] at hfree
        exact Bool.true_eq_false.mp hfree
      obtain ⟨j', rfl⟩ := Nat.exists_eq_succ_of_ne_zero hj0
      have hshift : c + (j' + 1) = (c + 1) + j' := by omega
      obtain ⟨j₀, hj₀, heq, hnone, hmin⟩ := ih (c + 1) ⟨j', by omega, by
        rw [← hshift]; exact hfree⟩
      refine ⟨j₀ + 1, by omega, ?_, ?_, ?_⟩
      · rw [findFrom, if_pos h0, heq]
        congr 1
        omega
      · have : c + (j₀ + 1) = (c + 1) + j₀ := by omega
        rw [this]
        exact hnone
      · intro i hi
        match i with
        | 0 => simpa using h0
        | i' + 1 =>
          have : c + (i' + 1) = (c + 1) + i' := by omega
          rw [this]
          exact hmin i' (by omega)
    · refine ⟨0, by omega, ?_, ?_, ?_⟩
      · rw [findFrom, if_neg h0, Nat.add_zero]
      · rw [Nat.add_zero]
        cases hc : lookupKey dest (candName stem sfx c) with
        | none => rfl
        | some v => rw [hc] at h0; simp at h0
      · intro i hi
        omega

theorem exists_free_cand (dest : Dir) (stem sfx : Name) :
    ∃ j, j < dest.length + 1 ∧
      (lookupKey dest (candName stem sfx (2 + j))).isSome = false := by
  by_contra hcon
  push_neg at hcon
  have htaken : ∀ j, j < dest.length + 1 →
      candName stem sfx (2 + j) ∈ keysOf dest := by
    intro j hj
    rw [← lookupKey_isSome_iff_mem]
    have := hcon j hj
    cases h : (lookupKey dest (candName stem sfx (2 + j))).isSome
    · exact absurd h this
    · rfl
  have hinj : Function.Injective fun j => candName stem sfx (2 + j) := by
    intro a b h
    have := candName_injective stem sfx h
    omega
  have hnd : ((List.range (dest.length + 1)).map
      (fun j => candName stem sfx (2 + j))).Nodup :=
    (List.nodup_range _).map hinj
  have hsub : ((List.range (dest.length + 1)).map
      (fun j => candName stem sfx (2 + j))) ⊆ keysOf dest := by
    intro x hx
    obtain ⟨j, hj, rfl⟩ := List.mem_map.mp hx
    exact htaken j (List.mem_range.mp hj)
  have hle := (List.subperm_of_subset hnd hsub).length_le
  rw [List.length_map, List.length_range] at hle
  have : keysOf dest = dest.map Prod.fst := rfl
  rw [this, List.length_map] at hle
  omega

/-- Full characterisation of `find_available_name`: a free target is
returned as is; a taken target yields the first free candidate
`f"{stem}_{k}{suffix}"` with `k ≥ 2`; the result never exists. -/
theorem find_available_name_spec (dest : Dir) (target : Name) (isf : Bool) :
    ((lookupKey dest target).isSome = false →
      find_available_name dest target isf = target) ∧
    ((lookupKey dest target).isSome = true →
      ∃ k, 2 ≤ k ∧
        find_available_name dest target isf =
          candName (pyStem target) (if isf then [] else pySuffix target) k ∧
        lookupKey dest
          (candName (pyStem target) (if isf then [] else pySuffix target) k) =
          none ∧
        ∀ i, 2 ≤ i → i < k →
          (lookupKey dest
            (candName (pyStem target) (if isf then [] else pySuffix target) i)).isSome
            = true) ∧
    lookupKey dest (find_available_name dest target isf) = none := by
  set sfx := if isf then ([] : Name) else pySuffix target with hsfx
  by_cases h : (lookupKey dest target).isSome = true
  · have h' : ((lookupKey dest target).isSome = false) = False := by
      simp [h]
    obtain ⟨j, hj, heq, hnone, hmin⟩ :=
      findFrom_spec dest (pyStem target) sfx (dest.length + 1) 2
        (exists_free_cand dest (pyStem target) sfx)
    have hfind : find_available_name dest target isf =
        candName (pyStem target) sfx (2 + j) := by
      rw [find_available_name, if_neg (by simp [h]), ← hsfx]
      exact heq
    refine ⟨fun hf => absurd h (by simp [hf]), fun _ => ⟨2 + j, by omega, hfind, hnone, ?_⟩,
      by rw [hfind]; exact hnone⟩
    intro i h2i hik
    have : i = 2 + (i - 2) := by omega
    rw [this]
    exact hmin (i - 2) (by omega)
  · have hf : (lookupKey dest target).isSome = false := by
      cases hx : (lookupKey dest target).isSome
      · rfl
      · exact absurd hx h
    have heq : find_available_name dest target isf = target := by
      rw [find_available_name, hf]
      simp
    refine ⟨fun _ => heq, fun ht => absurd ht h, ?_⟩
    rw [heq]
    cases hc : lookupKey dest target with
    | none => rfl
    | some v => rw [hc] at hf; simp at hf

/-- The name returned by `find_available_name` never exists in the
destination listing at the moment it is returned. -/
theorem find_available_name_fresh (dest : Dir) (target : Name) (isf : Bool) :
    lookupKey dest (find_available_name dest target isf) = none :=
  (find_available_name_spec dest target isf).2.2

/-- `FolderConsolidator.consolidate` of `consolidate_auto.py`
(lines 144-173): for each configured source root, a nonexistent root is
logged and skipped (`continue`) without touching the statistics, and an
existing root has its children iterated into the master folder. -/
def consolidate_auto (roots : List (Option Dir)) (master : Dir) (st : Stats) :
    Dir × Stats :=
  match roots with
  | [] => (master, st)
  | none :: rest => consolidate_auto rest master st
  | some items :: rest =>
    match copy_items items master st with
    | (m₂, st₂) => consolidate_auto rest m₂ st₂

/-- `FolderConsolidator.copy_folder_tree` of `folder_consolidator.py`
including its existence check (lines 162-165): a nonexistent source
(`none`) is counted as an error and skipped; an existing source directory
is processed as above. -/
def fc_copy_folder_tree (src : Option (Name × Bool × Dir)) (dest : Dir)
    (st : Stats) : Dir × Stats :=
  match src with
  | none => (dest, { st with errors := st.errors + 1 })
  | some (n, a, cs) => copy_folder_tree n a cs dest st

/-- `FolderConsolidator.consolidate` of `folder_consolidator.py`
(lines 204-225): each source root folder is itself copied into the master
folder via `copy_folder_tree`. -/
def fc_consolidate (roots : List (Option (Name × Bool × Dir))) (master : Dir)
    (st : Stats) : Dir × Stats :=
  match roots with
  | [] => (master, st)
  | r :: rest =>
    match fc_copy_folder_tree r master st with
    | (m₂, st₂) => fc_consolidate rest m₂ st₂

theorem consolidate_auto_cons_none (rest : List (Option Dir)) (master : Dir)
    (st : Stats) :
    consolidate_auto (none :: rest) master st = consolidate_auto rest master st := by
  rw [consolidate_auto]

theorem consolidate_auto_cons_some (items : Dir) (rest : List (Option Dir))
    (master : Dir) (st : Stats) :
    consolidate_auto (some items :: rest) master st =
      consolidate_auto rest (copy_items items master st).1
        (copy_items items master st).2 := by
  rw [consolidate_auto]

theorem fc_consolidate_cons (r : Option (Name × Bool × Dir))
    (rest : List (Option (Name × Bool × Dir))) (master : Dir) (st : Stats) :
    fc_consolidate (r :: rest) master st =
      fc_consolidate rest (fc_copy_folder_tree r master st).1
        (fc_copy_folder_tree r master st).2 := by
  rw [fc_consolidate]

theorem consolidate_auto_dest : ∀ (roots : List (Option Dir)) (master : Dir)
    (st : Stats), ∃ news, (consolidate_auto roots master st).1 = master ++ news
  | [], master, _ => ⟨[], by simp [consolidate_auto]⟩
  | none :: rest, master, st => by
    rw [consolidate_auto_cons_none]
    exact consolidate_auto_dest rest master st
  | some items :: rest, master, st => by
    rw [consolidate_auto_cons_some]
    obtain ⟨n₁, h₁⟩ := copy_items_dest items master st
    rw [h₁]
    obtain ⟨n₂, h₂⟩ := consolidate_auto_dest rest (master ++ n₁) _
    exact ⟨n₁ ++ n₂, by rw [h₂, List.append_assoc]⟩

theorem fc_copy_folder_tree_dest (r : Option (Name × Bool × Dir)) (dest : Dir)
    (st : Stats) : ∃ news, (fc_copy_folder_tree r dest st).1 = dest ++ news := by
  cases r with
  | none => exact ⟨[], by simp [fc_copy_folder_tree]⟩
  | some p =>
    obtain ⟨n, a, cs⟩ := p
    obtain ⟨m, ncs, h⟩ := copy_folder_tree_dest n a cs dest st
    exact ⟨[(m, FSEntry.dir true ncs)], by rw [fc_copy_folder_tree]; exact h⟩

theorem fc_consolidate_dest : ∀ (roots : List (Option (Name × Bool × Dir)))
    (master : Dir) (st : Stats),
    ∃ news, (fc_consolidate roots master st).1 = master ++ news
  | [], master, _ => ⟨[], by simp [fc_consolidate]⟩
  | r :: rest, master, st => by
    rw [fc_consolidate_cons]
    obtain ⟨n₁, h₁⟩ := fc_copy_folder_tree_dest r master st
    rw [h₁]
    obtain ⟨n₂, h₂⟩ := fc_consolidate_dest rest (master ++ n₁) _
    exact ⟨n₁ ++ n₂, by rw [h₂, List.append_assoc]⟩

/-! ### The empty-folder cleaner (`1_cleanup_empty_folders.py`) -/

/-- The `self.stats` dictionary of `EmptyFolderCleaner` (lines 34-37). -/
structure CleanStats : Type where
  empty_folders_deleted : Nat
  errors : Nat

/-- The all-zero initial cleaner statistics. -/
def CleanStats.zero : CleanStats := ⟨0, 0⟩

/-- `EmptyFolderCleaner.is_folder_empty` (lines 47-62): a full recursive
scan of the subtree finding no file returns `True`; a scan that raises
(some directory in the subtree is inaccessible) is caught and returns
`False`. -/
def is_folder_empty (e : FSEntry) : Bool :=
  allAccessible e && !containsFile e

/-- All directory paths strictly below the top of a forest
(`folder_path.rglob('*')` filtered to directories). -/
def dirPathsList (cs : Dir) : List FPath :=
  match cs with
  | [] => []
  | (_, FSEntry.file _ _) :: rest => dirPathsList rest
  | (n, FSEntry.dir _ cs') :: rest =>
    ([n] :: (dirPathsList cs').map (fun p => n :: p)) ++ dirPathsList rest
termination_by sizeOf cs

/-- All directory paths strictly below a root entry. -/
def dirPaths : FSEntry → List FPath
  | FSEntry.file _ _ => []
  | FSEntry.dir _ cs => dirPathsList cs

/-- Insert a path into a list sorted by decreasing depth, after existing
entries of the same depth (Python `sorted(..., key=len, reverse=True)`
is stable). -/
def insertByDepth (p : FPath) : List FPath → List FPath
  | [] => [p]
  | q :: rest =>
    if q.length < p.length then p :: q :: rest else q :: insertByDepth p rest

/-- Stable sort by decreasing path depth, modelling
`sorted(all_dirs, key=lambda p: len(p.parts), reverse=True)`
(lines 77-81). -/
def sortByDepth : List FPath → List FPath
  | [] => []
  | p :: rest => insertByDepth p (sortByDepth rest)

/-- `Path.rmdir` at a path strictly below the root: succeeds exactly on an
existing directory with no children, removing it; `none` models the raised
`OSError` otherwise. -/
def rmdirAt : FPath → FSEntry → Option FSEntry
  | [], _ => none
  | _ :: _, FSEntry.file _ _ => none
  | [n], FSEntry.dir a cs =>
    match lookupKey cs n with
    | some (FSEntry.dir _ []) => some (FSEntry.dir a (eraseKey cs n))
    | _ => none
  | n :: p₁ :: p, FSEntry.dir a cs =>
    match lookupKey cs n with
    | some e =>
      match rmdirAt (p₁ :: p) e with
      | some e' => some (FSEntry.dir a (replaceKey cs n e'))
      | none => none
    | none => none

/-- One iteration of the deletion loop of `remove_empty_folders`
(lines 83-92): check `is_folder_empty` at the recorded path, attempt
`rmdir`, count either the deletion or the error.  (A path that no longer
exists would enumerate as empty and then fail the `rmdir`, landing in the
same error branch; the ordering proof below shows this never happens.) -/
def pruneStep (acc : FSEntry × CleanStats) (p : FPath) : FSEntry × CleanStats :=
  match getAt p acc.1 with
  | none => (acc.1, { acc.2 with errors := acc.2.errors + 1 })
  | some e =>
    if is_folder_empty e then
      match rmdirAt p acc.1 with
      | some t' =>
        (t', { acc.2 with
          empty_folders_deleted := acc.2.empty_folders_deleted + 1 })
      | none => (acc.1, { acc.2 with errors := acc.2.errors + 1 })
    else acc

/-- `EmptyFolderCleaner.remove_empty_folders` (lines 64-96): a missing
root (`none`) is logged and skipped without touching the statistics; if
enumerating the subtree raises (some directory in it is inaccessible),
the outer `except` counts one error and nothing is deleted; otherwise
every recorded subdirectory is processed deepest-first. -/
def remove_empty_folders (root : Option FSEntry) (st : CleanStats) :
    Option FSEntry × CleanStats :=
  match root with
  | none => (none, st)
  | some t =>
    if allAccessible t then
      match (sortByDepth (dirPaths t)).foldl pruneStep (t, st) with
      | (t', st') => (some t', st')
    else (some t, { st with errors := st.errors + 1 })

/-! ### Association-list removal and replacement lemmas -/

theorem eraseKey_sublist {α : Type} (cs : List (Name × α)) (n : Name) :
    (eraseKey cs n).Sublist cs := by
  induction cs with
  | nil => simp [eraseKey]
  | cons p rest ih =>
    obtain ⟨m, e⟩ := p
    rw [eraseKey]
    by_cases h : m = n
    · rw [if_pos h]
      exact List.sublist_cons_self _ _
    · rw [if_neg h]
      exact List.Sublist.cons₂ _ ih

theorem lookupKey_eraseKey_self {α : Type} (cs : List (Name × α)) (n : Name)
    (h : (keysOf cs).Nodup) : lookupKey (eraseKey cs n) n = none := by
  induction cs with
  | nil => rfl
  | cons p rest ih =>
    obtain ⟨m, e⟩ := p
    rw [keysOf_cons, List.nodup_cons] at h
    rw [eraseKey]
    by_cases hm : m = n
    · rw [if_pos hm]
      rw [lookupKey_eq_none_iff]
      exact hm ▸ h.1
    · rw [if_neg hm, lookupKey, if_neg hm]
      exact ih h.2

theorem lookupKey_eraseKey_ne {α : Type} (cs : List (Name × α)) (n q : Name)
    (hq : q ≠ n) : lookupKey (eraseKey cs n) q = lookupKey cs q := by
  induction cs with
  | nil => rfl
  | cons p rest ih =>
    obtain ⟨m, e⟩ := p
    rw [eraseKey]
    by_cases hm : m = n
    · rw [if_pos hm, lookupKey, if_neg (by rw [hm]; exact fun he => hq he.symm)]
    · rw [if_neg hm, lookupKey, lookupKey]
      by_cases hmq : m = q
      · rw [if_pos hmq, if_pos hmq]
      · rw [if_neg hmq, if_neg hmq]
        exact ih

theorem lookupKey_replaceKey_self {α : Type} (cs : List (Name × α)) (n : Name)
    (v : α) (h : (lookupKey cs n).isSome = true) :
    lookupKey (replaceKey cs n v) n = some v := by
  induction cs with
  | nil => simp [lookupKey] at h
  | cons p rest ih =>
    obtain ⟨m, e⟩ := p
    rw [replaceKey]
    by_cases hm : m = n
    · rw [if_pos hm, lookupKey, if_pos hm]
    · rw [if_neg hm, lookupKey, if_neg hm]
      rw [lookupKey, if_neg hm] at h
      exact ih h

theorem lookupKey_replaceKey_ne {α : Type} (cs : List (Name × α)) (n q : Name)
    (v : α) (hq : q ≠ n) : lookupKey (replaceKey cs n v) q = lookupKey cs q := by
  induction cs with
  | nil => rfl
  | cons p rest ih =>
    obtain ⟨m, e⟩ := p
    rw [replaceKey]
    by_cases hm : m = n
    · rw [if_pos hm, lookupKey, lookupKey,
        if_neg (by rw [hm]; exact fun he => hq he.symm),
        if_neg (by rw [hm]; exact fun he => hq he.symm)]
    · rw [if_neg hm, lookupKey, lookupKey]
      by_cases hmq : m = q
      · rw [if_pos hmq, if_pos hmq]
      · rw [if_neg hmq, if_neg hmq]
        exact ih

theorem keysOf_replaceKey {α : Type} (cs : List (Name × α)) (n : Name) (v : α) :
    keysOf (replaceKey cs n v) = keysOf cs := by
  induction cs with
  | nil => rfl
  | cons p rest ih =>
    obtain ⟨m, e⟩ := p
    rw [replaceKey]
    by_cases hm : m = n
    · rw [if_pos hm]
      rfl
    · rw [if_neg hm, keysOf_cons, keysOf_cons, ih]

/-! ### Head-form lemmas for the structural predicates -/

theorem containsFileList_cons (m : Name) (e : FSEntry) (rest : Dir) :
    containsFileList ((m, e) :: rest) = (containsFile e || containsFileList rest) := by
  cases e with
  | file r c => rw [containsFileList, containsFile]; simp
  | dir a cs => rw [containsFileList, containsFile]

theorem allAccessibleList_cons (m : Name) (e : FSEntry) (rest : Dir) :
    allAccessibleList ((m, e) :: rest) =
      (allAccessible e && allAccessibleList rest) := by
  cases e with
  | file r c => rw [allAccessibleList, allAccessible]; simp
  | dir a cs => rw [allAccessibleList, allAccessible]

/-- Name-distinctness of each level, packaged per entry. -/
def treeNodup : FSEntry → Bool
  | FSEntry.file _ _ => true
  | FSEntry.dir _ cs => nodupKeysList cs

theorem nodupKeysList_cons (m : Name) (e : FSEntry) (rest : Dir) :
    nodupKeysList ((m, e) :: rest) =
      (!(decide (m ∈ keysOf rest)) && treeNodup e && nodupKeysList rest) := by
  cases e with
  | file r c => rw [nodupKeysList, treeNodup]; simp
  | dir a cs => rw [nodupKeysList, treeNodup]

/-! ### Lookup and preservation lemmas for the tree predicates -/

theorem containsFileList_lookup (cs : Dir) (n : Name) (e : FSEntry)
    (hl : lookupKey cs n = some e) (he : containsFile e = true) :
    containsFileList cs = true := by
  induction cs with
  | nil => simp [lookupKey] at hl
  | cons p rest ih =>
    obtain ⟨m, e₀⟩ := p
    rw [containsFileList_cons]
    rw [lookupKey] at hl
    by_cases hm : m = n
    · rw [if_pos hm] at hl
      injection hl with hl
      rw [hl, he]
      simp
    · rw [if_neg hm] at hl
      rw [ih hl]
      simp

theorem allAccessibleList_lookup (cs : Dir) (n : Name) (e : FSEntry)
    (hl : lookupKey cs n = some e) (ha : allAccessibleList cs = true) :
    allAccessible e = true := by
  induction cs with
  | nil => simp [lookupKey] at hl
  | cons p rest ih =>
    obtain ⟨m, e₀⟩ := p
    rw [allAccessibleList_cons, Bool.and_eq_true] at ha
    rw [lookupKey] at hl
    by_cases hm : m = n
    · rw [if_pos hm] at hl
      injection hl with hl
      rw [← hl]
      exact ha.1
    · rw [if_neg hm] at hl
      exact ih hl ha.2

theorem nodupKeysList_lookup (cs : Dir) (n : Name) (e : FSEntry)
    (hl : lookupKey cs n = some e) (h : nodupKeysList cs = true) :
    treeNodup e = true := by
  induction cs with
  | nil => simp [lookupKey] at hl
  | cons p rest ih =>
    obtain ⟨m, e₀⟩ := p
    rw [nodupKeysList_cons, Bool.and_eq_true, Bool.and_eq_true] at h
    rw [lookupKey] at hl
    by_cases hm : m = n
    · rw [if_pos hm] at hl
      injection hl with hl
      rw [← hl]
      exact h.1.2
    · rw [if_neg hm] at hl
      exact ih hl h.2

theorem nodupKeysList_keys (cs : Dir) (h : nodupKeysList cs = true) :
    (keysOf cs).Nodup := by
  induction cs with
  | nil => simp [keysOf]
  | cons p rest ih =>
    obtain ⟨m, e₀⟩ := p
    rw [nodupKeysList_cons, Bool.and_eq_true, Bool.and_eq_true] at h
    rw [keysOf_cons, List.nodup_cons]
    refine ⟨?_, ih h.2⟩
    have := h.1.1
    simpa using this

theorem containsFileList_eraseKey (cs : Dir) (n : Name) (e : FSEntry)
    (hl : lookupKey cs n = some e) (he : containsFile e = false) :
    containsFileList (eraseKey cs n) = containsFileList cs := by
  induction cs with
  | nil => rfl
  | cons p rest ih =>
    obtain ⟨m, e₀⟩ := p
    rw [lookupKey] at hl
    rw [eraseKey]
    by_cases hm : m = n
    · rw [if_pos hm] at hl ⊢
      injection hl with hl
      rw [containsFileList_cons, hl, he]
      simp
    · rw [if_neg hm] at hl ⊢
      rw [containsFileList_cons, containsFileList_cons, ih hl]

theorem containsFileList_replaceKey (cs : Dir) (n : Name) (e e₁ : FSEntry)
    (hl : lookupKey cs n = some e) (hcf : containsFile e₁ = containsFile e) :
    containsFileList (replaceKey cs n e₁) = containsFileList cs := by
  induction cs with
  | nil => rfl
  | cons p rest ih =>
    obtain ⟨m, e₀⟩ := p
    rw [lookupKey] at hl
    rw [replaceKey]
    by_cases hm : m = n
    · rw [if_pos hm] at hl ⊢
      injection hl with hl
      rw [containsFileList_cons, containsFileList_cons, hl, hcf]
    · rw [if_neg hm] at hl ⊢
      rw [containsFileList_cons, containsFileList_cons, ih hl]

theorem allAccessibleList_eraseKey (cs : Dir) (n : Name)
    (h : allAccessibleList cs = true) :
    allAccessibleList (eraseKey cs n) = true := by
  induction cs with
  | nil => exact h
  | cons p rest ih =>
    obtain ⟨m, e₀⟩ := p
    rw [allAccessibleList_cons, Bool.and_eq_true] at h
    rw [eraseKey]
    by_cases hm : m = n
    · rw [if_pos hm]
      exact h.2
    · rw [if_neg hm, allAccessibleList_cons, h.1, ih h.2]
      rfl

theorem allAccessibleList_replaceKey (cs : Dir) (n : Name) (e₁ : FSEntry)
    (h : allAccessibleList cs = true) (he₁ : allAccessible e₁ = true) :
    allAccessibleList (replaceKey cs n e₁) = true := by
  induction cs with
  | nil => exact h
  | cons p rest ih =>
    obtain ⟨m, e₀⟩ := p
    rw [allAccessibleList_cons, Bool.and_eq_true] at h
    rw [replaceKey]
    by_cases hm : m = n
    · rw [if_pos hm, allAccessibleList_cons, he₁, h.2]
      rfl
    · rw [if_neg hm, allAccessibleList_cons, h.1, ih h.2]
      rfl

theorem nodupKeysList_eraseKey (cs : Dir) (n : Name)
    (h : nodupKeysList cs = true) :
    nodupKeysList (eraseKey cs n) = true := by
  induction cs with
  | nil => exact h
  | cons p rest ih =>
    obtain ⟨m, e₀⟩ := p
    rw [nodupKeysList_cons, Bool.and_eq_true, Bool.and_eq_true] at h
    rw [eraseKey]
    by_cases hm : m = n
    · rw [if_pos hm]
      exact h.2
    · rw [if_neg hm, nodupKeysList_cons, h.1.2, ih h.2]
      have hmem : m ∉ keysOf (eraseKey rest n) := by
        intro hmem
        have hsub : keysOf (eraseKey rest n) ⊆ keysOf rest :=
          ((eraseKey_sublist rest n).map Prod.fst).subset
        have := h.1.1
        simp only [Bool.not_eq_true', decide_eq_false_iff_not] at this
        exact this (hsub hmem)
      simp [hmem]

theorem nodupKeysList_replaceKey (cs : Dir) (n : Name) (e₁ : FSEntry)
    (h : nodupKeysList cs = true) (he₁ : treeNodup e₁ = true) :
    nodupKeysList (replaceKey cs n e₁) = true := by
  induction cs with
  | nil => exact h
  | cons p rest ih =>
    obtain ⟨m, e₀⟩ := p
    rw [nodupKeysList_cons, Bool.and_eq_true, Bool.and_eq_true] at h
    rw [replaceKey]
    by_cases hm : m = n
    · rw [if_pos hm, nodupKeysList_cons, he₁, h.1.1, h.2]
      rfl
    · rw [if_neg hm, nodupKeysList_cons, h.1.2, ih h.2]
      have hk : keysOf (replaceKey rest n e₁) = keysOf rest :=
        keysOf_replaceKey rest n e₁
      rw [hk, h.1.1]
      rfl

/-! ### Path lookup lemmas -/

theorem getAt_append (p q : FPath) (t : FSEntry) :
    getAt (p ++ q) t = (getAt p t).bind (getAt q) := by
  induction p generalizing t with
  | nil => rw [List.nil_append, getAt]; rfl
  | cons n p₀ ih =>
    cases t with
    | file r c => rw [getAt]; rfl
    | dir a cs =>
      rw [List.cons_append, getAt, getAt]
      cases lookupKey cs n with
      | none => rfl
      | some e => exact ih e

theorem getAt_some_of_extend (p r : FPath) (t e : FSEntry)
    (h : getAt (p ++ r) t = some e) : ∃ e₀, getAt p t = some e₀ := by
  rw [getAt_append] at h
  cases hp : getAt p t with
  | none => rw [hp] at h; simp at h
  | some e₀ => exact ⟨e₀, rfl⟩

theorem containsFile_getAt : ∀ (q : FPath) (t e : FSEntry),
    getAt q t = some e → containsFile e = true → containsFile t = true
  | [], t, e, h, he => by
    rw [getAt] at h
    injection h with h
    rw [h]
    exact he
  | n :: q₀, FSEntry.file r c, e, h, he => by
    rw [getAt] at h
    exact absurd h (by simp)
  | n :: q₀, FSEntry.dir a cs, e, h, he => by
    rw [getAt] at h
    cases hl : lookupKey cs n with
    | none => rw [hl] at h; simp at h
    | some e₀ =>
      rw [hl] at h
      have hc := containsFile_getAt q₀ e₀ e h he
      rw [containsFile]
      exact containsFileList_lookup cs n e₀ hl hc

theorem allAccessible_getAt : ∀ (q : FPath) (t e : FSEntry),
    getAt q t = some e → allAccessible t = true → allAccessible e = true
  | [], t, e, h, ha => by
    rw [getAt] at h
    injection h with h
    rw [← h]
    exact ha
  | n :: q₀, FSEntry.file r c, e, h, ha => by
    rw [getAt] at h
    exact absurd h (by simp)
  | n :: q₀, FSEntry.dir a cs, e, h, ha => by
    rw [getAt] at h
    cases hl : lookupKey cs n with
    | none => rw [hl] at h; simp at h
    | some e₀ =>
      rw [hl] at h
      rw [allAccessible, Bool.and_eq_true] at ha
      exact allAccessible_getAt q₀ e₀ e h (allAccessibleList_lookup cs n e₀ hl ha.2)

theorem treeNodup_getAt : ∀ (q : FPath) (t e : FSEntry),
    getAt q t = some e → treeNodup t = true → treeNodup e = true
  | [], t, e, h, hn => by
    rw [getAt] at h
    injection h with h
    rw [← h]
    exact hn
  | n :: q₀, FSEntry.file r c, e, h, hn => by
    rw [getAt] at h
    exact absurd h (by simp)
  | n :: q₀, FSEntry.dir a cs, e, h, hn => by
    rw [getAt] at h
    cases hl : lookupKey cs n with
    | none => rw [hl] at h; simp at h
    | some e₀ =>
      rw [hl] at h
      rw [treeNodup] at hn
      exact treeNodup_getAt q₀ e₀ e h (nodupKeysList_lookup cs n e₀ hl hn)

/-! ### Effect of a single `rmdir` on the tree -/

theorem rmdirAt_spec : ∀ (p : FPath) (t : FSEntry) (b : Bool),
    treeNodup t = true →
    getAt p t = some (FSEntry.dir b []) →
    p ≠ [] →
    ∃ t₁, rmdirAt p t = some t₁ ∧
      treeNodup t₁ = true ∧
      (allAccessible t = true → allAccessible t₁ = true) ∧
      (∀ q, (∃ r, q = p ++ r) → getAt q t₁ = none) ∧
      (∀ q, ¬ (∃ r, q = p ++ r) → ¬ (∃ r, p = q ++ r) →
        getAt q t₁ = getAt q t) ∧
      (∀ q, (∃ r, p = q ++ r) → q ≠ p →
        ∃ e e₁, getAt q t = some e ∧ getAt q t₁ = some e₁ ∧
          containsFile e₁ = containsFile e ∧
          ∀ b₀ cs₀, e = FSEntry.dir b₀ cs₀ → ∃ cs₁, e₁ = FSEntry.dir b₀ cs₁)
  | [], _, _, _, _, hne => absurd rfl hne
  | n :: p₀, FSEntry.file r c, b, hn, hget, _ => by
    rw [getAt] at hget
    exact absurd hget (by simp)
  | [n], FSEntry.dir a cs, b, hn, hget, _ => by
    rw [getAt] at hget
    cases hl : lookupKey cs n with
    | none => rw [hl] at hget; simp at hget
    | some e₂ =>
      rw [hl] at hget
      have he₂ : e₂ = FSEntry.dir b [] := by
        have : getAt [] e₂ = some (FSEntry.dir b []) := hget
        rw [getAt] at this
        injection this
      subst he₂
      have hkeys : (keysOf cs).Nodup := nodupKeysList_keys cs hn
      refine ⟨FSEntry.dir a (eraseKey cs n), ?_, ?_, ?_, ?_, ?_, ?_⟩
      · simp only [rmdirAt, hl]
      · rw [treeNodup] at hn ⊢
        exact nodupKeysList_eraseKey cs n hn
      · intro ha
        rw [allAccessible, Bool.and_eq_true] at ha ⊢
        exact ⟨ha.1, allAccessibleList_eraseKey cs n ha.2⟩
      · rintro q ⟨r, rfl⟩
        rw [getAt_append]
        have h1 : getAt [n] (FSEntry.dir a (eraseKey cs n)) = none := by
          rw [getAt, lookupKey_eraseKey_self cs n hkeys]
        rw [h1]
        rfl
      · intro q hq1 hq2
        match q with
        | [] => exact absurd ⟨[n], rfl⟩ hq2
        | m :: q₀ =>
          have hm : ¬ (m = n) := by
            intro he
            exact hq1 ⟨q₀, by subst he; rfl⟩
          rw [getAt, getAt, lookupKey_eraseKey_ne cs n m (fun he => hm he)]
      · intro q hq hqne
        have hq0 : q = [] := by
          obtain ⟨r, hr⟩ := hq
          match q, hr with
          | [], _ => rfl
          | m :: q₀, hr =>
            injection hr with h1 h2
            have : q₀ = [] ∧ r = [] := by
              constructor
              · cases q₀ with
                | nil => rfl
                | cons x xs => simp at h2
              · cases q₀ with
                | nil => simpa using h2.symm
                | cons x xs => simp at h2
            exact absurd (by rw [h1, this.1]) hqne
        subst hq0
        refine ⟨FSEntry.dir a cs, FSEntry.dir a (eraseKey cs n), rfl, rfl, ?_, ?_⟩
        · rw [containsFile, containsFile]
          exact containsFileList_eraseKey cs n (FSEntry.dir b []) hl
            (by rw [containsFile, containsFileList])
        · intro b₀ cs₀ he
          injection he with hb hcs
          exact ⟨eraseKey cs n, by rw [hb]⟩
  | n :: p₁ :: p₀, FSEntry.dir a cs, b, hn, hget, _ => by
    rw [getAt] at hget
    cases hl : lookupKey cs n with
    | none => rw [hl] at hget; simp at hget
    | some e₀ =>
      rw [hl] at hget
      have hget₀ : getAt (p₁ :: p₀) e₀ = some (FSEntry.dir b []) := hget
      have hn₀ : treeNodup e₀ = true := by
        rw [treeNodup] at hn
        exact nodupKeysList_lookup cs n e₀ hl hn
      obtain ⟨e₁, hrm, hnd₁, hacc₁, hrem, hdiv, hanc⟩ :=
        rmdirAt_spec (p₁ :: p₀) e₀ b hn₀ hget₀ (by simp)
      have hsome : (lookupKey cs n).isSome = true := by rw [hl]; rfl
      have hlrep : lookupKey (replaceKey cs n e₁) n = some e₁ :=
        lookupKey_replaceKey_self cs n e₁ hsome
      refine ⟨FSEntry.dir a (replaceKey cs n e₁), ?_, ?_, ?_, ?_, ?_, ?_⟩
      · simp only [rmdirAt, hl, hrm]
      · rw [treeNodup] at hn ⊢
        exact nodupKeysList_replaceKey cs n e₁ hn hnd₁
      · intro ha
        rw [allAccessible, Bool.and_eq_true] at ha ⊢
        refine ⟨ha.1, allAccessibleList_replaceKey cs n e₁ ha.2 ?_⟩
        exact hacc₁ (allAccessibleList_lookup cs n e₀ hl ha.2)
      · rintro q ⟨r, rfl⟩
        rw [List.cons_append, getAt, hlrep]
        exact hrem ((p₁ :: p₀) ++ r) ⟨r, rfl⟩
      · intro q hq1 hq2
        match q with
        | [] => exact absurd ⟨n :: p₁ :: p₀, rfl⟩ hq2
        | m :: q₀ =>
          by_cases hm : m = n
          · subst hm
            have h1 : ¬ (∃ r, q₀ = (p₁ :: p₀) ++ r) := by
              rintro ⟨r, rfl⟩
              exact hq1 ⟨r, rfl⟩
            have h2 : ¬ (∃ r, (p₁ :: p₀) = q₀ ++ r) := by
              rintro ⟨r, hr⟩
              exact hq2 ⟨r, by rw [List.cons_append, ← hr]⟩
            rw [getAt, getAt, hlrep, hl]
            exact hdiv q₀ h1 h2
          · rw [getAt, getAt, lookupKey_replaceKey_ne cs n m e₁ (fun he => hm he)]
      · intro q hq hqne
        match q with
        | [] =>
          obtain ⟨e, e₁x, hgeta, hgetb, hcf, hshape⟩ :=
            hanc [] ⟨p₁ :: p₀, rfl⟩ (by simp)
          have he : e = e₀ := by
            rw [getAt] at hgeta
            injection hgeta with h
            exact h.symm
          have he₁x : e₁x = e₁ := by
            rw [getAt] at hgetb
            injection hgetb with h
            exact h.symm
          refine ⟨FSEntry.dir a cs, FSEntry.dir a (replaceKey cs n e₁),
            rfl, rfl, ?_, ?_⟩
          · rw [containsFile, containsFile]
            exact containsFileList_replaceKey cs n e₀ e₁ hl
              (by rw [← he, ← he₁x]; exact hcf)
          · intro b₀ cs₀ heq
            injection heq with hb hcs
            exact ⟨replaceKey cs n e₁, by rw [hb]⟩
        | m :: q₀ =>
          obtain ⟨r, hr⟩ := hq
          rw [List.cons_append] at hr
          injection hr with hmn hrest
          subst hmn
          have hq₀ne : q₀ ≠ p₁ :: p₀ := by
            intro he
            exact hqne (by rw [he])
          obtain ⟨e, e₁x, hgeta, hgetb, hcf, hshape⟩ :=
            hanc q₀ ⟨r, hrest⟩ hq₀ne
          refine ⟨e, e₁x, ?_, ?_, hcf, hshape⟩
          · rw [getAt, hl]
            exact hgeta
          · rw [getAt, hlrep]
            exact hgetb

/-! ### Enumerated directory paths versus `getAt` -/

theorem dirPathsList_shape (cs : Dir) (p : FPath) (h : p ∈ dirPathsList cs) :
    ∃ n q, p = n :: q ∧ n ∈ keysOf cs := by
  match cs with
  | [] =>
    rw [dirPathsList] at h
    simp at h
  | (m, FSEntry.file r c) :: rest =>
    rw [dirPathsList] at h
    obtain ⟨n, q, rfl, hn⟩ := dirPathsList_shape rest p h
    exact ⟨n, q, rfl, by rw [keysOf_cons]; exact List.mem_cons_of_mem _ hn⟩
  | (m, FSEntry.dir a cs₀) :: rest =>
    rw [dirPathsList] at h
    rw [List.mem_append, List.mem_cons] at h
    rcases h with (rfl | hmap) | hrest
    · exact ⟨m, [], rfl, by rw [keysOf_cons]; exact List.mem_cons_self _ _⟩
    · obtain ⟨q, _, rfl⟩ := List.mem_map.mp hmap
      exact ⟨m, q, rfl, by rw [keysOf_cons]; exact List.mem_cons_self _ _⟩
    · obtain ⟨n, q, rfl, hn⟩ := dirPathsList_shape rest p hrest
      exact ⟨n, q, rfl, by rw [keysOf_cons]; exact List.mem_cons_of_mem _ hn⟩
termination_by sizeOf cs

theorem mem_dirPathsList_iff (cs : Dir) (hn : nodupKeysList cs = true)
    (p : FPath) :
    p ∈ dirPathsList cs ↔
      (p ≠ [] ∧ ∃ b ds, getAt p (FSEntry.dir true cs) = some (FSEntry.dir b ds)) := by
  match cs with
  | [] =>
    rw [dirPathsList]
    constructor
    · intro h
      simp at h
    · rintro ⟨hne, b, ds, hget⟩
      cases p with
      | nil => exact absurd rfl hne
      | cons n q =>
        rw [getAt] at hget
        have hz : lookupKey ([] : Dir) n = none := rfl
        rw [hz] at hget
        simp at hget
  | (m, FSEntry.file r c) :: rest =>
    rw [nodupKeysList_cons, Bool.and_eq_true, Bool.and_eq_true] at hn
    have hmem : m ∉ keysOf rest := by
      have := hn.1.1
      simpa using this
    rw [dirPathsList]
    rw [mem_dirPathsList_iff rest hn.2 p]
    constructor
    · rintro ⟨hne, b, ds, hget⟩
      refine ⟨hne, b, ds, ?_⟩
      cases p with
      | nil => exact absurd rfl hne
      | cons n q =>
        rw [getAt] at hget ⊢
        rw [lookupKey]
        have hnm : ¬ (m = n) := by
          intro he
          cases hx : lookupKey rest n with
          | none => rw [hx] at hget; simp at hget
          | some e₂ =>
            have hin : n ∈ keysOf rest := by
              rw [← lookupKey_isSome_iff_mem, hx]
              rfl
            exact hmem (he ▸ hin)
        rw [if_neg hnm]
        exact hget
    · rintro ⟨hne, b, ds, hget⟩
      refine ⟨hne, b, ds, ?_⟩
      cases p with
      | nil => exact absurd rfl hne
      | cons n q =>
        rw [getAt] at hget ⊢
        rw [lookupKey] at hget
        by_cases hnm : m = n
        · rw [if_pos hnm] at hget
          have hget₂ : getAt q (FSEntry.file r c) = some (FSEntry.dir b ds) := hget
          cases q with
          | nil =>
            rw [getAt] at hget₂
            simp at hget₂
          | cons x q₀ =>
            rw [getAt] at hget₂
            simp at hget₂
        · rw [if_neg hnm] at hget
          exact hget
  | (m, FSEntry.dir a cs₀) :: rest =>
    rw [nodupKeysList_cons, Bool.and_eq_true, Bool.and_eq_true] at hn
    have hmem : m ∉ keysOf rest := by
      have := hn.1.1
      simpa using this
    have hcs₀ : nodupKeysList cs₀ = true := hn.1.2
    rw [dirPathsList]
    rw [List.mem_append, List.mem_cons]
    constructor
    · rintro ((rfl | hmap) | hrest)
      · refine ⟨by simp, a, cs₀, ?_⟩
        rw [getAt, lookupKey, if_pos rfl]
        rfl
      · obtain ⟨q, hq, rfl⟩ := List.mem_map.mp hmap
        obtain ⟨hqne, b, ds, hget⟩ := (mem_dirPathsList_iff cs₀ hcs₀ q).mp hq
        refine ⟨by simp, b, ds, ?_⟩
        rw [getAt, lookupKey, if_pos rfl]
        cases q with
        | nil => exact absurd rfl hqne
        | cons n₀ q₀ => exact hget
      · obtain ⟨hqne, b, ds, hget⟩ := (mem_dirPathsList_iff rest hn.2 p).mp hrest
        refine ⟨hqne, b, ds, ?_⟩
        cases p with
        | nil => exact absurd rfl hqne
        | cons n q =>
          rw [getAt] at hget ⊢
          rw [lookupKey]
          have hnm : ¬ (m = n) := by
            intro he
            cases hx : lookupKey rest n with
            | none => rw [hx] at hget; simp at hget
            | some e₂ =>
              have hin : n ∈ keysOf rest := by
                rw [← lookupKey_isSome_iff_mem, hx]
                rfl
              exact hmem (he ▸ hin)
          rw [if_neg hnm]
          exact hget
    · rintro ⟨hne, b, ds, hget⟩
      cases p with
      | nil => exact absurd rfl hne
      | cons n q =>
        rw [getAt, lookupKey] at hget
        by_cases hnm : m = n
        · rw [if_pos hnm] at hget
          subst hnm
          cases q with
          | nil => exact Or.inl (Or.inl rfl)
          | cons x q₀ =>
            refine Or.inl (Or.inr ?_)
            rw [List.mem_map]
            refine ⟨x :: q₀, ?_, rfl⟩
            rw [mem_dirPathsList_iff cs₀ hcs₀]
            exact ⟨by simp, b, ds, hget⟩
        · rw [if_neg hnm] at hget
          refine Or.inr ?_
          rw [mem_dirPathsList_iff rest hn.2]
          refine ⟨by simp, b, ds, ?_⟩
          rw [getAt]
          exact hget
termination_by sizeOf cs

theorem dirPathsList_nodup (cs : Dir) (hn : nodupKeysList cs = true) :
    (dirPathsList cs).Nodup := by
  match cs with
  | [] =>
    rw [dirPathsList]
    exact List.nodup_nil
  | (m, FSEntry.file r c) :: rest =>
    rw [dirPathsList]
    rw [nodupKeysList_cons, Bool.and_eq_true, Bool.and_eq_true] at hn
    exact dirPathsList_nodup rest hn.2
  | (m, FSEntry.dir a cs₀) :: rest =>
    rw [nodupKeysList_cons, Bool.and_eq_true, Bool.and_eq_true] at hn
    have hmem : m ∉ keysOf rest := by
      have := hn.1.1
      simpa using this
    rw [dirPathsList]
    refine List.Nodup.append ?_ (dirPathsList_nodup rest hn.2) ?_
    · rw [List.nodup_cons]
      constructor
      · intro hmem₀
        obtain ⟨q, hq, he⟩ := List.mem_map.mp hmem₀
        obtain ⟨n₀, q₀, rfl, _⟩ := dirPathsList_shape cs₀ q hq
        simp at he
      · exact List.Nodup.map List.cons_injective (dirPathsList_nodup cs₀ hn.1.2)
    · intro p hp1 hp2
      obtain ⟨n, q, rfl, hn₂⟩ := dirPathsList_shape rest p hp2
      rw [List.mem_cons] at hp1
      rcases hp1 with he | hmap
      · injection he with h1 h2
        exact hmem (h1 ▸ hn₂)
      · obtain ⟨q₀, _, he⟩ := List.mem_map.mp hmap
        injection he with h1 h2
        exact hmem (h1 ▸ hn₂)
termination_by sizeOf cs

/-! ### The depth sort -/

theorem insertByDepth_perm (p : FPath) (l : List FPath) :
    (insertByDepth p l).Perm (p :: l) := by
  induction l with
  | nil => exact List.Perm.refl _
  | cons q rest ih =>
    rw [insertByDepth]
    by_cases h : q.length < p.length
    · rw [if_pos h]
    · rw [if_neg h]
      exact (ih.cons q).trans (List.Perm.swap p q rest)

theorem sortByDepth_perm (l : List FPath) : (sortByDepth l).Perm l := by
  induction l with
  | nil => exact List.Perm.refl _
  | cons p rest ih =>
    rw [sortByDepth]
    exact (insertByDepth_perm p (sortByDepth rest)).trans (ih.cons p)

theorem insertByDepth_pairwise (p : FPath) (l : List FPath)
    (h : List.Pairwise (fun a b => b.length ≤ a.length) l) :
    List.Pairwise (fun a b => b.length ≤ a.length) (insertByDepth p l) := by
  induction l with
  | nil => simp [insertByDepth]
  | cons q rest ih =>
    rw [insertByDepth]
    rw [List.pairwise_cons] at h
    by_cases hlt : q.length < p.length
    · rw [if_pos hlt]
      rw [List.pairwise_cons]
      refine ⟨?_, List.pairwise_cons.mpr h⟩
      intro b hb
      rw [List.mem_cons] at hb
      rcases hb with rfl | hb
      · omega
      · have := h.1 b hb
        omega
    · rw [if_neg hlt]
      rw [List.pairwise_cons]
      refine ⟨?_, ih h.2⟩
      intro b hb
      have := (insertByDepth_perm p rest).mem_iff.mp hb
      rw [List.mem_cons] at this
      rcases this with rfl | hb₀
      · omega
      · exact h.1 b hb₀

theorem sortByDepth_pairwise (l : List FPath) :
    List.Pairwise (fun a b => b.length ≤ a.length) (sortByDepth l) := by
  induction l with
  | nil => simp [sortByDepth]
  | cons p rest ih =>
    rw [sortByDepth]
    exact insertByDepth_pairwise p _ ih

/-! ### The deletion fold -/

/-- A nonempty path to a directory of `t` whose subtree contains no
files — exactly the directories the pruning pass deletes. -/
def emptyDirAt (t : FSEntry) (p : FPath) : Prop :=
  p ≠ [] ∧ ∃ b cs, getAt p t = some (FSEntry.dir b cs) ∧ containsFileList cs = false

/-- Invariant of the deletion fold: after the paths in `done` have been
processed, the working tree `u` agrees with the original tree `t` except
that exactly the subtrees under processed file-empty directories are
gone, and no surviving node changed its file content or directory
shape. -/
def pruneInv (t : FSEntry) (done : List FPath) (u : FSEntry) : Prop :=
  treeNodup u = true ∧
  allAccessible u = true ∧
  (∀ q, getAt q u = none ↔
    (getAt q t = none ∨ ∃ p, p ∈ done ∧ emptyDirAt t p ∧ ∃ r, q = p ++ r)) ∧
  (∀ q e₁, getAt q u = some e₁ →
    ∃ e, getAt q t = some e ∧ containsFile e₁ = containsFile e ∧
      ∀ b cs, e = FSEntry.dir b cs → ∃ cs₁, e₁ = FSEntry.dir b cs₁)

theorem dirPaths_nodup (t : FSEntry) (ht : treeNodup t = true) :
    (dirPaths t).Nodup := by
  cases t with
  | file r c =>
    rw [dirPaths]
    exact List.nodup_nil
  | dir b cs =>
    rw [dirPaths]
    rw [treeNodup] at ht
    exact dirPathsList_nodup cs ht

theorem getAt_root_flag (n : Name) (q : FPath) (a b : Bool) (cs : Dir) :
    getAt (n :: q) (FSEntry.dir a cs) = getAt (n :: q) (FSEntry.dir b cs) := by
  rw [getAt, getAt]

theorem mem_dirPaths_iff (t : FSEntry) (ht : treeNodup t = true) (p : FPath) :
    p ∈ dirPaths t ↔
      (p ≠ [] ∧ ∃ b ds, getAt p t = some (FSEntry.dir b ds)) := by
  cases t with
  | file r c =>
    rw [dirPaths]
    constructor
    · intro h
      simp at h
    · rintro ⟨hne, b, ds, hget⟩
      cases p with
      | nil => exact absurd rfl hne
      | cons n q =>
        rw [getAt] at hget
        exact absurd hget (by simp)
  | dir a cs =>
    rw [dirPaths]
    rw [treeNodup] at ht
    rw [mem_dirPathsList_iff cs ht p]
    constructor
    · rintro ⟨hne, b, ds, hget⟩
      refine ⟨hne, b, ds, ?_⟩
      cases p with
      | nil => exact absurd rfl hne
      | cons n q => rw [getAt_root_flag n q a true cs]; exact hget
    · rintro ⟨hne, b, ds, hget⟩
      refine ⟨hne, b, ds, ?_⟩
      cases p with
      | nil => exact absurd rfl hne
      | cons n q => rw [getAt_root_flag n q true a cs]; exact hget

theorem pruneFold_inv (t : FSEntry) (ht : treeNodup t = true) :
    ∀ (todo done : List FPath) (u : FSEntry) (st : CleanStats),
      sortByDepth (dirPaths t) = done ++ todo →
      pruneInv t done u →
      pruneInv t (done ++ todo) (todo.foldl pruneStep (u, st)).1 ∧
      (todo.foldl pruneStep (u, st)).2.errors = st.errors := by
  intro todo
  induction todo with
  | nil =>
    intro done u st _ hInv
    rw [List.foldl_nil, List.append_nil]
    exact ⟨hInv, rfl⟩
  | cons p todo₀ ih =>
    intro done u st hL hInv
    obtain ⟨hndU, haccU, hnone, hsome⟩ := hInv
    have hndL : (sortByDepth (dirPaths t)).Nodup :=
      (sortByDepth_perm (dirPaths t)).nodup_iff.mpr (dirPaths_nodup t ht)
    have hmemL : ∀ q, q ∈ sortByDepth (dirPaths t) ↔ q ∈ dirPaths t :=
      fun q => (sortByDepth_perm (dirPaths t)).mem_iff
    have hpL := sortByDepth_pairwise (dirPaths t)
    have hpmem : p ∈ dirPaths t := by
      rw [← hmemL, hL]
      exact List.mem_append.mpr (Or.inr (List.mem_cons_self _ _))
    obtain ⟨hpne, b₀, cs₀, hgetT⟩ := (mem_dirPaths_iff t ht p).mp hpmem
    have hup : ∃ e₁, getAt p u = some e₁ := by
      cases hu : getAt p u with
      | some e₁ => exact ⟨e₁, rfl⟩
      | none =>
        exfalso
        rcases (hnone p).mp hu with hT | ⟨pp, hpdone, hpempty, r, hr⟩
        · rw [hgetT] at hT
          exact Option.noConfusion hT
        · have hlen : p.length ≤ pp.length := by
            have hsplit := List.pairwise_append.mp (hL ▸ hpL)
            exact hsplit.2.2 pp hpdone p (List.mem_cons_self _ _)
          cases r with
          | nil =>
            rw [List.append_nil] at hr
            subst hr
            have hdup := hndL
            rw [hL, List.nodup_append] at hdup
            exact hdup.2.2 hpdone (List.mem_cons_self _ _)
          | cons x r₀ =>
            rw [hr, List.length_append] at hlen
            simp at hlen
    obtain ⟨e₁, hu⟩ := hup
    obtain ⟨eT, hgetT₂, hcf, hshape⟩ := hsome p e₁ hu
    rw [hgetT] at hgetT₂
    injection hgetT₂ with heT
    obtain ⟨cs₁, he₁⟩ := hshape b₀ cs₀ heT.symm
    subst he₁
    by_cases hempty : containsFileList cs₀ = false
    · -- the directory is file-empty: it gets deleted
      have hcfe₁ : containsFile (FSEntry.dir b₀ cs₁) = false := by
        rw [hcf, ← heT, containsFile]
        exact hempty
      have hacc₁ : allAccessible (FSEntry.dir b₀ cs₁) = true :=
        allAccessible_getAt p u _ hu haccU
      have hife : is_folder_empty (FSEntry.dir b₀ cs₁) = true := by
        rw [is_folder_empty, hacc₁, hcfe₁]
        rfl
      have hcs₁nil : cs₁ = [] := by
        cases hcs₁ : cs₁ with
        | nil => rfl
        | cons q₀ cs₂ =>
          exfalso
          obtain ⟨mn, ec⟩ := q₀
          have hlkp : lookupKey cs₁ mn = some ec := by
            rw [hcs₁, lookupKey, if_pos rfl]
          have hgetc : getAt (p ++ [mn]) u = some ec := by
            rw [getAt_append, hu]
            show getAt [mn] (FSEntry.dir b₀ cs₁) = some ec
            rw [getAt, hlkp]
            rfl
          obtain ⟨ecT, hgetcT, hcfc, _⟩ := hsome _ ec hgetc
          have hcfcT : containsFile ecT = false := by
            cases hb : containsFile ecT with
            | false => rfl
            | true =>
              exfalso
              have hgT : getAt [mn] (FSEntry.dir b₀ cs₀) = some ecT := by
                have hx := hgetcT
                rw [getAt_append, hgetT] at hx
                exact hx
              have hcp : containsFile (FSEntry.dir b₀ cs₀) = true :=
                containsFile_getAt [mn] _ ecT hgT hb
              rw [containsFile, hempty] at hcp
              exact Bool.noConfusion hcp
          obtain ⟨bc, csc, hecT⟩ : ∃ bc csc, ecT = FSEntry.dir bc csc := by
            cases ecT with
            | file rr cc =>
              rw [containsFile] at hcfcT
              exact absurd hcfcT (by simp)
            | dir bc csc => exact ⟨bc, csc, rfl⟩
          have hqmem : (p ++ [mn]) ∈ dirPaths t := by
            rw [mem_dirPaths_iff t ht]
            refine ⟨by simp, bc, csc, ?_⟩
            rw [hecT] at hgetcT
            exact hgetcT
          have hqdone : (p ++ [mn]) ∈ done := by
            have hmem₂ : (p ++ [mn]) ∈ done ++ p :: todo₀ := by
               rw [← hL, hmemL]
               exact hqmem
            rcases List.mem_append.mp hmem₂ with h₁ | h₂
            · exact h₁
            · exfalso
              rcases List.mem_cons.mp h₂ with h₃ | h₄
              · have := congrArg List.length h₃
                rw [List.length_append] at this
                simp at this
              · have hsplit := List.pairwise_append.mp (hL ▸ hpL)
                have hpair₂ := hsplit.2.1
                rw [List.pairwise_cons] at hpair₂
                have := hpair₂.1 _ h₄
                rw [List.length_append] at this
                simp at this
          have hremoved : getAt (p ++ [mn]) u = none := by
            rw [hnone]
            refine Or.inr ⟨p ++ [mn], hqdone, ?_, [], by rw [List.append_nil]⟩
            refine ⟨by simp, bc, csc, ?_, ?_⟩
            · rw [hecT] at hgetcT
              exact hgetcT
            · rw [hecT, containsFile] at hcfcT
              exact hcfcT
          rw [hgetc] at hremoved
          exact Option.noConfusion hremoved
      subst hcs₁nil
      obtain ⟨u₁, hrm, hndU₁, haccU₁, hrem, hdiv, hanc⟩ :=
        rmdirAt_spec p u b₀ hndU hu hpne
      have hstep : pruneStep (u, st) p =
          (u₁, { st with
            empty_folders_deleted := st.empty_folders_deleted + 1 }) := by
        simp [pruneStep, hu, hife, hrm]
      have hInv₁ : pruneInv t (done ++ [p]) u₁ := by
        refine ⟨hndU₁, haccU₁ haccU, ?_, ?_⟩
        · intro q
          constructor
          · intro hq
            by_cases hqp : ∃ r, q = p ++ r
            · exact Or.inr ⟨p,
                List.mem_append.mpr (Or.inr (List.mem_singleton.mpr rfl)),
                ⟨hpne, b₀, cs₀, hgetT, hempty⟩, hqp⟩
            · by_cases hpq : ∃ r, p = q ++ r
              · have hqnep : q ≠ p := fun he =>
                  hqp ⟨[], by rw [he, List.append_nil]⟩
                obtain ⟨e, e₂, _, hge₂, _, _⟩ := hanc q hpq hqnep
                rw [hge₂] at hq
                exact Option.noConfusion hq
              · rw [hdiv q hqp hpq] at hq
                rcases (hnone q).mp hq with hT | ⟨pp, h₁, h₂, h₃⟩
                · exact Or.inl hT
                · exact Or.inr ⟨pp, List.mem_append.mpr (Or.inl h₁), h₂, h₃⟩
          · intro hq
            have huqnone : (getAt q t = none ∨
                ∃ pp, pp ∈ done ∧ emptyDirAt t pp ∧ ∃ r, q = pp ++ r) →
                getAt q u₁ = none := by
              intro hcase
              have huq : getAt q u = none := (hnone q).mpr hcase
              by_cases hqp : ∃ r, q = p ++ r
              · exact hrem q hqp
              · by_cases hpq : ∃ r, p = q ++ r
                · exfalso
                  obtain ⟨r₁, hr₁⟩ := hpq
                  have hx : getAt p u = none := by
                    rw [hr₁, getAt_append, huq]
                    rfl
                  rw [hu] at hx
                  exact Option.noConfusion hx
                · rw [hdiv q hqp hpq]
                  exact huq
            rcases hq with hT | ⟨pp, hpp, hppe, r, hr⟩
            · exact huqnone (Or.inl hT)
            · rcases List.mem_append.mp hpp with h₁ | h₂
              · exact huqnone (Or.inr ⟨pp, h₁, hppe, r, hr⟩)
              · rw [List.mem_singleton] at h₂
                subst h₂
                exact hrem q ⟨r, hr⟩
        · intro q e₂ hq
          by_cases hqp : ∃ r, q = p ++ r
          · rw [hrem q hqp] at hq
            exact Option.noConfusion hq
          · by_cases hpq : ∃ r, p = q ++ r
            · have hqnep : q ≠ p := fun he =>
                hqp ⟨[], by rw [he, List.append_nil]⟩
              obtain ⟨e, e₃, hge, hge₂, hcf₂, hshape₂⟩ := hanc q hpq hqnep
              rw [hq] at hge₂
              injection hge₂ with hee
              obtain ⟨eT₂, hgeT, hcfT, hshapeT⟩ := hsome q e hge
              refine ⟨eT₂, hgeT, ?_, ?_⟩
              · rw [hee, hcf₂, hcfT]
              · intro b cs hb
                obtain ⟨cs₂, h₁⟩ := hshapeT b cs hb
                obtain ⟨cs₃, h₂⟩ := hshape₂ b cs₂ h₁
                exact ⟨cs₃, by rw [hee]; exact h₂⟩
            · rw [hdiv q hqp hpq] at hq
              exact hsome q e₂ hq
      have hL₁ : sortByDepth (dirPaths t) = (done ++ [p]) ++ todo₀ := by
        rw [hL]
        simp
      have hfin := ih (done ++ [p]) u₁
        { st with empty_folders_deleted := st.empty_folders_deleted + 1 }
        hL₁ hInv₁
      rw [List.foldl_cons, hstep]
      refine ⟨?_, hfin.2⟩
      have hEq : (done ++ [p]) ++ todo₀ = done ++ p :: todo₀ := by simp
      rw [← hEq]
      exact hfin.1
    · -- the directory still contains a file: the pass keeps it
      have hct : containsFileList cs₀ = true := by
        cases hb : containsFileList cs₀ with
        | false => exact absurd hb hempty
        | true => rfl
      have hcontains : containsFile (FSEntry.dir b₀ cs₁) = true := by
        rw [hcf, ← heT, containsFile]
        exact hct
      have hife : is_folder_empty (FSEntry.dir b₀ cs₁) = false := by
        rw [is_folder_empty, hcontains]
        simp
      have hstep : pruneStep (u, st) p = (u, st) := by
        simp [pruneStep, hu, hife]
      have hInv₁ : pruneInv t (done ++ [p]) u := by
        refine ⟨hndU, haccU, ?_, hsome⟩
        intro q
        rw [hnone q]
        constructor
        · rintro (hT | ⟨pp, h₁, h₂, h₃⟩)
          · exact Or.inl hT
          · exact Or.inr ⟨pp, List.mem_append.mpr (Or.inl h₁), h₂, h₃⟩
        · rintro (hT | ⟨pp, h₁, h₂, h₃⟩)
          · exact Or.inl hT
          · rcases List.mem_append.mp h₁ with h₄ | h₅
            · exact Or.inr ⟨pp, h₄, h₂, h₃⟩
            · exfalso
              rw [List.mem_singleton] at h₅
              subst h₅
              obtain ⟨_, b₂, cs₂, hg₂, hc₂⟩ := h₂
              rw [hgetT] at hg₂
              injection hg₂ with hg₂
              injection hg₂ with hb₂ hcs₂
              rw [← hcs₂] at hc₂
              rw [hct] at hc₂
              exact Bool.noConfusion hc₂
      have hL₁ : sortByDepth (dirPaths t) = (done ++ [p]) ++ todo₀ := by
        rw [hL]
        simp
      have hfin := ih (done ++ [p]) u st hL₁ hInv₁
      rw [List.foldl_cons, hstep]
      refine ⟨?_, hfin.2⟩
      have hEq : (done ++ [p]) ++ todo₀ = done ++ p :: todo₀ := by simp
      rw [← hEq]
      exact hfin.1

theorem pruneInv_init (t : FSEntry) (ht : treeNodup t = true)
    (ha : allAccessible t = true) : pruneInv t [] t := by
  refine ⟨ht, ha, ?_, ?_⟩
  · intro q
    constructor
    · intro h
      exact Or.inl h
    · rintro (h | ⟨p, hp, _, _⟩)
      · exact h
      · simp at hp
  · intro q e₁ h
    exact ⟨e₁, h, rfl, fun b cs hb => ⟨cs, hb⟩⟩

theorem remove_empty_folders_run (t : FSEntry) (st : CleanStats)
    (ha : allAccessible t = true) :
    remove_empty_folders (some t) st =
      (some ((sortByDepth (dirPaths t)).foldl pruneStep (t, st)).1,
       ((sortByDepth (dirPaths t)).foldl pruneStep (t, st)).2) := by
  rw [remove_empty_folders]
  rw [if_pos ha]

/-! ## The claims -/

/-- C5: for every root and finite directory tree (well-formed: distinct
sibling names, all directories accessible — so the run completes without
errors), after `remove_empty_folders` every directory strictly below the
root whose subtree contained zero files has been deleted, every entry
whose subtree contained at least one file remains (a directory stays a
directory), and the root itself is never deleted; moreover no error is
counted. -/
theorem c5_pruner_contract (t : FSEntry) (st : CleanStats)
    (ht : treeNodup t = true) (ha : allAccessible t = true) :
    ∃ u st₁, remove_empty_folders (some t) st = (some u, st₁) ∧
      st₁.errors = st.errors ∧
      (∀ p b cs, getAt p t = some (FSEntry.dir b cs) → p ≠ [] →
        containsFileList cs = false → getAt p u = none) ∧
      (∀ p e, getAt p t = some e → containsFile e = true →
        ∃ e₁, getAt p u = some e₁ ∧
          ∀ b cs, e = FSEntry.dir b cs → ∃ cs₁, e₁ = FSEntry.dir b cs₁) ∧
      getAt [] u = some u := by
  obtain ⟨hInv, herr⟩ := pruneFold_inv t ht (sortByDepth (dirPaths t)) [] t st
    (by rw [List.nil_append]) (pruneInv_init t ht ha)
  obtain ⟨hnd₁, hacc₁, hnone, hsome⟩ := hInv
  refine ⟨((sortByDepth (dirPaths t)).foldl pruneStep (t, st)).1,
    ((sortByDepth (dirPaths t)).foldl pruneStep (t, st)).2,
    remove_empty_folders_run t st ha, herr, ?_, ?_, ?_⟩
  · intro p b cs hget hne hcf
    rw [hnone]
    refine Or.inr ⟨p, ?_, ⟨hne, b, cs, hget, hcf⟩, [], by rw [List.append_nil]⟩
    rw [List.nil_append]
    rw [(sortByDepth_perm (dirPaths t)).mem_iff]
    rw [mem_dirPaths_iff t ht]
    exact ⟨hne, b, cs, hget⟩
  · intro p e hget hcfe
    cases hres : getAt p ((sortByDepth (dirPaths t)).foldl pruneStep (t, st)).1 with
    | none =>
      exfalso
      rcases (hnone p).mp hres with hT | ⟨pp, hpp, ⟨_, b₂, cs₂, hg₂, hc₂⟩, r, hr⟩
      · rw [hget] at hT
        exact Option.noConfusion hT
      · have hx : getAt r (FSEntry.dir b₂ cs₂) = some e := by
          have hy := hget
          rw [hr, getAt_append, hg₂] at hy
          exact hy
        have hz := containsFile_getAt r _ e hx hcfe
        rw [containsFile, hc₂] at hz
        exact Bool.noConfusion hz
    | some e₁ =>
      obtain ⟨e₂, hg₂, _, hshape₂⟩ := hsome p e₁ hres
      rw [hget] at hg₂
      injection hg₂ with hg₂
      refine ⟨e₁, rfl, ?_⟩
      intro b cs hb
      exact hshape₂ b cs (by rw [← hg₂]; exact hb)
  · rw [getAt]

/-- A small concrete tree: `A/b/c` (a chain of file-less directories) next
to `A/d/f` where `f` is a readable file — the spec's pruning example. -/
def demoTree : FSEntry :=
  FSEntry.dir true
    [(['b'], FSEntry.dir true [(['c'], FSEntry.dir true [])]),
     (['d'], FSEntry.dir true [(['f'], FSEntry.file true [1])])]

/-- Witness for C5 at the concrete tree `demoTree`. -/
theorem c5_pruner_contract_witness :
    ∃ u st₁, remove_empty_folders (some demoTree) CleanStats.zero = (some u, st₁) ∧
      st₁.errors = CleanStats.zero.errors ∧
      (∀ p b cs, getAt p demoTree = some (FSEntry.dir b cs) → p ≠ [] →
        containsFileList cs = false → getAt p u = none) ∧
      (∀ p e, getAt p demoTree = some e → containsFile e = true →
        ∃ e₁, getAt p u = some e₁ ∧
          ∀ b cs, e = FSEntry.dir b cs → ∃ cs₁, e₁ = FSEntry.dir b cs₁) ∧
      getAt [] u = some u :=
  c5_pruner_contract demoTree CleanStats.zero
    (by simp [demoTree, treeNodup, nodupKeysList, keysOf])
    (by simp [demoTree, allAccessible, allAccessibleList])

theorem copy_items_append (xs ys : Dir) : ∀ (dest : Dir) (st : Stats),
    copy_items (xs ++ ys) dest st =
      copy_items ys (copy_items xs dest st).1 (copy_items xs dest st).2 := by
  induction xs with
  | nil =>
    intro dest st
    rw [List.nil_append, copy_items_nil]
  | cons p rest ih =>
    intro dest st
    obtain ⟨n, e⟩ := p
    cases e with
    | file r c =>
      rw [List.cons_append, copy_items_cons_file', copy_items_cons_file', ih]
    | dir a cs =>
      rw [List.cons_append, copy_items_cons_dir', copy_items_cons_dir', ih]

theorem lookupKey_of_mem_nodup {α : Type} (l : List (Name × α)) (n : Name)
    (v : α) (h : (n, v) ∈ l) (hnd : (keysOf l).Nodup) :
    lookupKey l n = some v := by
  induction l with
  | nil => simp at h
  | cons p rest ih =>
    obtain ⟨m, w⟩ := p
    rw [keysOf_cons, List.nodup_cons] at hnd
    rcases List.mem_cons.mp h with he | hm
    · injection he with he₁ he₂
      rw [lookupKey, if_pos he₁.symm, he₂]
    · have hne : ¬ (m = n) := by
        intro he
        subst he
        exact hnd.1 (by
          have : (m, v) ∈ rest := hm
          have : m ∈ keysOf rest := by
            rw [keysOf]
            exact List.mem_map.mpr ⟨(m, v), hm, rfl⟩
          exact this)
      rw [lookupKey, if_neg hne]
      exact ih hm hnd.2

/-- C1: for a readable source file, `copy_file` applies exactly the
three-way policy: absent destination → copy verbatim and increment
`files_copied`; destination present with identical digest → destination
untouched, nothing copied, increment `files_skipped`; destination present
and different → copy to the sibling produced by `find_available_name`
anchored at the destination and increment `files_renamed`.  The explicit
result records show that exactly one of the three counters changes in
each branch. -/
theorem c1_copy_file_policy (c : List Nat) (dn : Name) (dest : Dir) (st : Stats) :
    (lookupKey dest dn = none →
      copy_file (FSEntry.file true c) dn dest st =
        (dest ++ [(dn, FSEntry.file true c)],
          { st with files_copied := st.files_copied + 1 })) ∧
    (∀ e, lookupKey dest dn = some e →
      are_files_identical (FSEntry.file true c) e = true →
      copy_file (FSEntry.file true c) dn dest st =
        (dest, { st with files_skipped := st.files_skipped + 1 })) ∧
    (∀ e, lookupKey dest dn = some e →
      are_files_identical (FSEntry.file true c) e = false →
      copy_file (FSEntry.file true c) dn dest st =
        (dest ++ [(find_available_name dest dn false, FSEntry.file true c)],
          { st with files_renamed := st.files_renamed + 1 })) := by
  refine ⟨?_, ?_, ?_⟩
  · intro h
    simp [copy_file, h]
  · intro e h hid
    simp [copy_file, h, hid]
  · intro e h hid
    simp [copy_file, h, hid]

/-- Witness for C1: copying a readable file to an empty destination takes
the first branch. -/
theorem c1_copy_file_policy_witness :
    copy_file (FSEntry.file true [1]) ['a'] [] Stats.zero =
      ([(['a'], FSEntry.file true [1])],
        { Stats.zero with files_copied := 1 }) :=
  (c1_copy_file_policy [1] ['a'] [] Stats.zero).1 rfl

/-- C2 (amended): `find_available_name` returns a free target unchanged;
for a taken target it returns the first unused candidate
`f"{stem}_{k}{suffix}"` for `k = 2, 3, …`, where the `pathlib` suffix is
re-attached for files and dropped for folders — i.e. for folders the
counter is appended to the *stem*, so a folder name containing a dot
loses its final `.part` instead of getting the suffix at the end of the
whole name; the returned name never exists at the moment it is
returned. -/
theorem c2_find_available_name (dest : Dir) (target : Name) (isf : Bool) :
    ((lookupKey dest target).isSome = false →
      find_available_name dest target isf = target) ∧
    ((lookupKey dest target).isSome = true →
      ∃ k, 2 ≤ k ∧
        find_available_name dest target isf =
          candName (pyStem target) (if isf then [] else pySuffix target) k ∧
        lookupKey dest (candName (pyStem target)
          (if isf then [] else pySuffix target) k) = none ∧
        ∀ i, 2 ≤ i → i < k →
          (lookupKey dest (candName (pyStem target)
            (if isf then [] else pySuffix target) i)).isSome = true) ∧
    lookupKey dest (find_available_name dest target isf) = none :=
  find_available_name_spec dest target isf

/-- Witness for C2 at a taken one-entry destination. -/
theorem c2_find_available_name_witness :
    ∃ k, 2 ≤ k ∧
      find_available_name [(['a'], FSEntry.dir true [])] ['a'] true =
        candName (pyStem ['a']) (if true then [] else pySuffix ['a']) k ∧
      lookupKey [(['a'], FSEntry.dir true [])] (candName (pyStem ['a'])
        (if true then [] else pySuffix ['a']) k) = none ∧
      ∀ i, 2 ≤ i → i < k →
        (lookupKey [(['a'], FSEntry.dir true [])] (candName (pyStem ['a'])
          (if true then [] else pySuffix ['a']) i)).isSome = true :=
  (c2_find_available_name [(['a'], FSEntry.dir true [])] ['a'] true).2.1 rfl

/-- Modelled from the spec: the sibling candidate the specification
prescribes for directories — the counter suffix appended at the end of
the whole name. -/
def specDirCandidate (name : Name) (c : Nat) : Name :=
  name ++ '_' :: natChars c

/-- C2 counterexample: for an existing directory named `a.b` the code
returns `a_2` (the `pathlib` stem, with `.b` silently dropped), although
the first name of the spec's sequence, `a.b_2`, is unused — so for
directories the suffix is NOT appended at the end of the whole name as
the claim states. -/
theorem c2_counterexample :
    find_available_name [(['a', '.', 'b'], FSEntry.dir true [])]
        ['a', '.', 'b'] true = ['a', '_', '2'] ∧
    specDirCandidate ['a', '.', 'b'] 2 = ['a', '.', 'b', '_', '2'] ∧
    lookupKey [(['a', '.', 'b'], FSEntry.dir true [])]
      ['a', '.', 'b', '_', '2'] = none ∧
    (['a', '_', '2'] : Name) ≠ ['a', '.', 'b', '_', '2'] := by
  refine ⟨?_, ?_, ?_, ?_⟩
  · simp [find_available_name, lookupKey, pyStem, pySuffix, lastDot, findFrom,
      candName, natChars, natCharsAux, digitChar]
  · simp [specDirCandidate, natChars, natCharsAux, digitChar]
  · simp [lookupKey]
  · decide

/-- C6: a file pair is identical iff both digests compute successfully
and agree; if the destination exists but hashing either side fails,
the pair counts as not identical, so `copy_file` leaves the skip counter
and the original destination entry untouched and attempts the
rename-and-copy instead (one of `files_renamed` or `errors` increments,
and with a readable source the sibling copy actually happens). -/
theorem c6_hash_failure_policy :
    (∀ e₁ e₂, are_files_identical e₁ e₂ = true ↔
      ∃ h₁ h₂, get_file_hash e₁ = some h₁ ∧ get_file_hash e₂ = some h₂ ∧
        h₁ = h₂) ∧
    (∀ src dn dest st e, lookupKey dest dn = some e →
      (get_file_hash src = none ∨ get_file_hash e = none) →
      (copy_file src dn dest st).2.files_skipped = st.files_skipped ∧
      lookupKey (copy_file src dn dest st).1 dn = some e ∧
      (copy_file src dn dest st).2.files_renamed +
        (copy_file src dn dest st).2.errors =
        st.files_renamed + st.errors + 1 ∧
      (∀ c, src = FSEntry.file true c →
        copy_file src dn dest st =
          (dest ++ [(find_available_name dest dn false, FSEntry.file true c)],
            { st with files_renamed := st.files_renamed + 1 }))) := by
  constructor
  · intro e₁ e₂
    cases h₁ : get_file_hash e₁ <;> cases h₂ : get_file_hash e₂ <;>
      simp [are_files_identical, h₁, h₂]
  · intro src dn dest st e hl hh
    have hid : are_files_identical src e = false := by
      rcases hh with h | h
      · simp [are_files_identical, h]
      · cases hs : get_file_hash src <;> simp [are_files_identical, h, hs]
    cases src with
    | file r c =>
      cases r with
      | true =>
        refine ⟨by simp [copy_file, hl, hid],
          ?_, by simp [copy_file, hl, hid]; omega, ?_⟩
        · simp only [copy_file, hl, hid]
          simp only [Bool.false_eq_true, if_false]
          exact lookupKey_append_left hl _
        · intro c₀ hc₀
          injection hc₀ with _ hcc
          subst hcc
          simp [copy_file, hl, hid]
      | false =>
        refine ⟨by simp [copy_file, hl, hid],
          ?_, by simp [copy_file, hl, hid]; omega, ?_⟩
        · simp only [copy_file, hl, hid]
          simp only [Bool.false_eq_true, if_false]
          exact hl
        · intro c₀ hc₀
          exact absurd hc₀ (by simp)
    | dir a cs =>
      refine ⟨by simp [copy_file, hl, hid],
        ?_, by simp [copy_file, hl, hid]; omega, ?_⟩
      · simp only [copy_file, hl, hid]
        simp only [Bool.false_eq_true, if_false]
        exact hl
      · intro c₀ hc₀
        exact absurd hc₀ (by simp)

/-- Witness for C6: an unreadable destination file forces the
rename-and-copy branch. -/
theorem c6_hash_failure_policy_witness :
    (copy_file (FSEntry.file true [1]) ['a']
      [(['a'], FSEntry.file false [2])] Stats.zero).2.files_skipped =
        Stats.zero.files_skipped ∧
    lookupKey (copy_file (FSEntry.file true [1]) ['a']
      [(['a'], FSEntry.file false [2])] Stats.zero).1 ['a'] =
        some (FSEntry.file false [2]) ∧
    (copy_file (FSEntry.file true [1]) ['a']
      [(['a'], FSEntry.file false [2])] Stats.zero).2.files_renamed +
      (copy_file (FSEntry.file true [1]) ['a']
        [(['a'], FSEntry.file false [2])] Stats.zero).2.errors =
      Stats.zero.files_renamed + Stats.zero.errors + 1 ∧
    (∀ c, FSEntry.file true [1] = FSEntry.file true c →
      copy_file (FSEntry.file true [1]) ['a']
        [(['a'], FSEntry.file false [2])] Stats.zero =
        ([(['a'], FSEntry.file false [2])] ++
          [(find_available_name [(['a'], FSEntry.file false [2])] ['a'] false,
            FSEntry.file true c)],
          { Stats.zero with files_renamed := Stats.zero.files_renamed + 1 })) :=
  c6_hash_failure_policy.2 (FSEntry.file true [1]) ['a']
    [(['a'], FSEntry.file false [2])] Stats.zero (FSEntry.file false [2])
    rfl (Or.inr rfl)

/-- C8 (amended): a nonexistent source (or pruning) root is skipped and
the run continues with the remaining roots in every driver, but only
`folder_consolidator.py`'s engine increments the error counter;
`consolidate_auto.py`'s `consolidate` and the pruner's
`remove_empty_folders` log the message and leave the statistics
unchanged. -/
theorem c8_missing_root (rest : List (Option Dir))
    (fcrest : List (Option (Name × Bool × Dir))) (master : Dir) (st : Stats)
    (cst : CleanStats) :
    consolidate_auto (none :: rest) master st =
      consolidate_auto rest master st ∧
    fc_consolidate (none :: fcrest) master st =
      fc_consolidate fcrest master { st with errors := st.errors + 1 } ∧
    remove_empty_folders none cst = (none, cst) := by
  refine ⟨consolidate_auto_cons_none rest master st, ?_, rfl⟩
  rw [fc_consolidate_cons]
  rfl

/-- C8 counterexample: a run over a single nonexistent root leaves the
error counter at zero in `consolidate_auto`'s driver and in the pruner,
contradicting the claimed increment. -/
theorem c8_counterexample :
    (consolidate_auto [none] [] Stats.zero).2.errors = 0 ∧
    (remove_empty_folders none CleanStats.zero).2.errors = 0 := by
  exact ⟨rfl, rfl⟩

/-- C9 (amended): `copy_folder_tree` increments the directory-create
counter in BOTH branches — once for every directory it processes (one
for the directory itself plus one for each reachable nested directory),
because the collision branch renames and then still performs the
counted `mkdir`; so the create counter equals the number of processed
source directories, not the number whose destination was absent.  A
collision additionally increments `folders_renamed`. -/
theorem c9_create_counter (n : Name) (a : Bool) (cs dest : Dir) (st : Stats) :
    (copy_folder_tree n a cs dest st).2.folders_copied =
      st.folders_copied + processedDirsList [(n, FSEntry.dir a cs)] ∧
    st.folders_renamed + (if (lookupKey dest n).isSome then 1 else 0) ≤
      (copy_folder_tree n a cs dest st).2.folders_renamed := by
  constructor
  · rw [copy_folder_tree_snd]
    cases a
    · rw [if_neg (by simp)]
      simp [processedDirsList, mkdirStats_folders_copied]
    · rw [if_pos rfl, copy_items_folders_copied, mkdirStats_folders_copied]
      simp [processedDirsList]
      omega
  · have hmono : (mkdirStats (lookupKey dest n).isSome st).folders_renamed ≤
        (copy_folder_tree n a cs dest st).2.folders_renamed := by
      rw [copy_folder_tree_snd]
      cases a
      · rw [if_neg (by simp)]
      · rw [if_pos rfl]
        exact copy_items_renamed_mono cs [] _
    have h₂ := mkdirStats_folders_renamed (lookupKey dest n).isSome st
    omega

/-- C9 counterexample: a source directory colliding with an existing
destination entry still increments the directory-create counter, while
under the claim the create counter would stay at zero for a run whose
only directory found its destination taken. -/
theorem c9_counterexample :
    (lookupKey [(['d'], FSEntry.dir true [])] ['d']).isSome = true ∧
    (copy_folder_tree ['d'] true [] [(['d'], FSEntry.dir true [])]
      Stats.zero).2.folders_copied = 1 ∧
    (copy_folder_tree ['d'] true [] [(['d'], FSEntry.dir true [])]
      Stats.zero).2.folders_renamed = 1 := by
  refine ⟨rfl, ?_, ?_⟩ <;>
    simp [copy_folder_tree, copy_items, lookupKey, Stats.zero,
      find_available_name, pyStem, pySuffix, lastDot, findFrom, candName,
      natChars, natCharsAux, digitChar]

/-- C10: the merge engine never overwrites, truncates or deletes an
existing destination entry — both consolidation drivers only append
freshly named entries — so every file reachable in the master tree
before a run is reachable with identical bytes afterwards. -/
theorem c10_no_overwrite (p : FPath) (r : Bool) (c : List Nat) (master : Dir)
    (st st₁ : Stats) (roots : List (Option Dir))
    (fcroots : List (Option (Name × Bool × Dir)))
    (h : getAt p (FSEntry.dir true master) = some (FSEntry.file r c)) :
    getAt p (FSEntry.dir true (consolidate_auto roots master st).1) =
      some (FSEntry.file r c) ∧
    getAt p (FSEntry.dir true (fc_consolidate fcroots master st₁).1) =
      some (FSEntry.file r c) := by
  constructor
  · obtain ⟨news, hn⟩ := consolidate_auto_dest roots master st
    rw [hn]
    exact getAt_file_append news p true master r c h
  · obtain ⟨news, hn⟩ := fc_consolidate_dest fcroots master st₁
    rw [hn]
    exact getAt_file_append news p true master r c h

/-- Witness for C10: a pre-existing file survives a run that collides
with its name using different content, and a run over a missing root. -/
theorem c10_no_overwrite_witness :
    getAt [['x']] (FSEntry.dir true (consolidate_auto
      [some [(['x'], FSEntry.file true [9])]]
      [(['x'], FSEntry.file true [7])] Stats.zero).1) =
      some (FSEntry.file true [7]) ∧
    getAt [['x']] (FSEntry.dir true (fc_consolidate [none]
      [(['x'], FSEntry.file true [7])] Stats.zero).1) =
      some (FSEntry.file true [7]) :=
  c10_no_overwrite [['x']] true [7] [(['x'], FSEntry.file true [7])]
    Stats.zero Stats.zero [some [(['x'], FSEntry.file true [9])]] [none]
    (by simp [getAt, lookupKey])

theorem wfList_of_plain (items : Dir)
    (hplain : ∀ q ∈ items, ∃ c, q.2 = FSEntry.file true c)
    (hnd : (keysOf items).Nodup) : wfList items = true := by
  induction items with
  | nil => rw [wfList]
  | cons p rest ih =>
    obtain ⟨n, e⟩ := p
    obtain ⟨c, hc⟩ := hplain (n, e) (List.mem_cons_self _ _)
    simp only at hc
    subst hc
    rw [keysOf_cons, List.nodup_cons] at hnd
    rw [wfList]
    simp [hnd.1, ih (fun q hq => hplain q (List.mem_cons_of_mem _ hq)) hnd.2]

/-- C3 (amended): re-running the merge with the same single source root
is idempotent in the claimed sense only when the root's entries are all
plain readable files with distinct names and the master starts empty:
the second run copies and renames nothing and counts every file as
skipped.  A root with a subdirectory is instead renamed wholesale and
re-copied on the second run — see the counterexample. -/
theorem c3_files_only_idempotent (items : Dir) (st₁ st₂ : Stats)
    (hplain : ∀ q ∈ items, ∃ c, q.2 = FSEntry.file true c)
    (hnd : (keysOf items).Nodup) :
    consolidate_auto [some items]
        (consolidate_auto [some items] [] st₁).1 st₂ =
      ((consolidate_auto [some items] [] st₁).1,
        { st₂ with files_skipped := st₂.files_skipped + items.length }) := by
  have hrun : ∀ (m : Dir) (st : Stats),
      consolidate_auto [some items] m st = copy_items items m st := by
    intro m st
    rw [consolidate_auto_cons_some, consolidate_auto]
  have hwf := wfList_of_plain items hplain hnd
  have hfirst : (consolidate_auto [some items] [] st₁).1 = items := by
    rw [hrun, copy_items_wf items [] st₁ hwf (fun m _ => rfl)]
    rfl
  rw [hrun, hfirst]
  exact copy_items_second_skip items items st₂ (fun q hq => by
    obtain ⟨c, hc⟩ := hplain q hq
    refine ⟨c, hc, ?_⟩
    have hmem : (q.1, FSEntry.file true c) ∈ items := by
      have hq₂ : (q.1, q.2) ∈ items := hq
      rw [hc] at hq₂
      exact hq₂
    exact lookupKey_of_mem_nodup items q.1 (FSEntry.file true c) hmem hnd)

/-- Witness for C3 (amended) at a one-file source root. -/
theorem c3_files_only_idempotent_witness :
    consolidate_auto [some [(['f'], FSEntry.file true [1])]]
        (consolidate_auto [some [(['f'], FSEntry.file true [1])]] []
          Stats.zero).1 Stats.zero =
      ((consolidate_auto [some [(['f'], FSEntry.file true [1])]] []
          Stats.zero).1,
        { Stats.zero with files_skipped := Stats.zero.files_skipped +
            [(['f'], FSEntry.file true [1])].length }) :=
  c3_files_only_idempotent [(['f'], FSEntry.file true [1])] Stats.zero
    Stats.zero
    (fun q hq => by
      rw [List.mem_singleton] at hq
      exact ⟨[1], by rw [hq]⟩)
    (by simp [keysOf])

/-- C3 counterexample: a source root holding one subdirectory `d` with
one file.  On the second identical run the directory collides, is
renamed to `d_2`, and its file is copied again: the run records one
`files_copied` and one `folders_renamed` but zero `files_skipped` —
not the all-skips second run the claim describes. -/
theorem c3_counterexample :
    (consolidate_auto
        [some [(['d'], FSEntry.dir true [(['f'], FSEntry.file true [1])])]]
        (consolidate_auto
          [some [(['d'], FSEntry.dir true [(['f'], FSEntry.file true [1])])]]
          [] Stats.zero).1 Stats.zero).2 =
      { Stats.zero with
          files_copied := 1, folders_copied := 1, folders_renamed := 1 } := by
  simp [consolidate_auto, copy_items, copy_folder_tree, copy_file, lookupKey,
    Stats.zero, find_available_name, pyStem, pySuffix, lastDot, findFrom,
    candName, natChars, natCharsAux, digitChar, are_files_identical,
    get_file_hash]

theorem copy_folder_tree_collide (n : Name) (cs dest : Dir) (st : Stats)
    (hw : wfList cs = true) (hcol : (lookupKey dest n).isSome = true) :
    copy_folder_tree n true cs dest st =
      (dest ++ [(find_available_name dest n true, FSEntry.dir true cs)],
        addCopied (mkdirStats true st) cs) := by
  unfold copy_folder_tree
  rw [hcol]
  simp only [if_pos rfl]
  rw [copy_items_wf cs [] _ hw (fun m _ => rfl)]
  simp [mkdirStats]

/-- The name of the spec's example directory. -/
def photosName : Name := ['P', 'h', 'o', 't', 'o', 's']

/-- C4: two source roots each containing a subdirectory `Photos` with
well-formed contents, merged into an empty master, produce exactly
`Photos` holding the first root's forest and `Photos_2` holding the
second root's forest — the second colliding directory is renamed
wholesale, and the two contents are never interleaved into one
destination directory. -/
theorem c4_wholesale_rename (cs₁ cs₂ : Dir) (st : Stats)
    (h₁ : wfList cs₁ = true) (h₂ : wfList cs₂ = true) :
    (consolidate_auto
      [some [(photosName, FSEntry.dir true cs₁)],
       some [(photosName, FSEntry.dir true cs₂)]] [] st).1 =
      [(photosName, FSEntry.dir true cs₁),
       (photosName ++ ['_', '2'], FSEntry.dir true cs₂)] := by
  have hwf₁ : wfList [(photosName, FSEntry.dir true cs₁)] = true := by
    rw [wfList]
    simp [keysOf, h₁, wfList]
  have e₁ : copy_items [(photosName, FSEntry.dir true cs₁)] [] st =
      ([(photosName, FSEntry.dir true cs₁)],
        addCopied st [(photosName, FSEntry.dir true cs₁)]) := by
    rw [copy_items_wf _ [] st hwf₁ (fun m _ => rfl)]
    rfl
  have hfan : find_available_name [(photosName, FSEntry.dir true cs₁)]
      photosName true = photosName ++ ['_', '2'] := by
    simp [find_available_name, lookupKey, photosName, pyStem, pySuffix,
      lastDot, findFrom, candName, natChars, natCharsAux, digitChar]
  have e₂ : copy_folder_tree photosName true cs₂
      [(photosName, FSEntry.dir true cs₁)]
      (addCopied st [(photosName, FSEntry.dir true cs₁)]) =
      ([(photosName, FSEntry.dir true cs₁),
        (photosName ++ ['_', '2'], FSEntry.dir true cs₂)],
        addCopied (mkdirStats true
          (addCopied st [(photosName, FSEntry.dir true cs₁)])) cs₂) := by
    rw [copy_folder_tree_collide photosName cs₂
      [(photosName, FSEntry.dir true cs₁)]
      (addCopied st [(photosName, FSEntry.dir true cs₁)]) h₂ (by rfl), hfan]
    rfl
  rw [consolidate_auto_cons_some, e₁]
  rw [consolidate_auto_cons_some]
  rw [copy_items_cons_dir']
  rw [e₂]
  rw [copy_items_nil, consolidate_auto]

/-- Witness for C4 with one concrete file in each `Photos`. -/
theorem c4_wholesale_rename_witness :
    (consolidate_auto
      [some [(photosName, FSEntry.dir true [(['x'], FSEntry.file true [1])])],
       some [(photosName, FSEntry.dir true [(['y'], FSEntry.file true [2])])]]
      [] Stats.zero).1 =
      [(photosName, FSEntry.dir true [(['x'], FSEntry.file true [1])]),
       (photosName ++ ['_', '2'],
        FSEntry.dir true [(['y'], FSEntry.file true [2])])] :=
  c4_wholesale_rename [(['x'], FSEntry.file true [1])]
    [(['y'], FSEntry.file true [2])] Stats.zero
    (by simp [wfList, keysOf])
    (by simp [wfList, keysOf])

/-- C7: a permission failure confined to one subdirectory increments the
error counter exactly once and does not stop the processing of sibling
files and directories: merging a children listing `cs₁ ++ bad :: cs₂`
around one inaccessible directory `bad` (everything else well-formed,
names fresh in the destination) copies `cs₁` and `cs₂` completely,
creates `bad` as an empty destination directory, and counts exactly one
error. -/
theorem c7_error_isolation (n : Name) (bcs cs₁ cs₂ dest : Dir) (st : Stats)
    (h₁ : wfList cs₁ = true) (h₂ : wfList cs₂ = true)
    (hnd : (keysOf (cs₁ ++ (n, FSEntry.dir false bcs) :: cs₂)).Nodup)
    (hdisj : ∀ m, m ∈ keysOf (cs₁ ++ (n, FSEntry.dir false bcs) :: cs₂) →
      lookupKey dest m = none) :
    copy_items (cs₁ ++ (n, FSEntry.dir false bcs) :: cs₂) dest st =
      ((dest ++ cs₁) ++ (n, FSEntry.dir true []) :: cs₂,
        { st with
            files_copied :=
              st.files_copied + countFilesList cs₁ + countFilesList cs₂,
            folders_copied :=
              st.folders_copied + countDirsList cs₁ + 1 + countDirsList cs₂,
            errors := st.errors + 1 }) := by
  have hkeys : keysOf (cs₁ ++ (n, FSEntry.dir false bcs) :: cs₂) =
      keysOf cs₁ ++ n :: keysOf cs₂ := by
    simp [keysOf]
  rw [hkeys] at hnd
  rw [List.nodup_append] at hnd
  have hn₁ : n ∉ keysOf cs₁ := fun hmem =>
    hnd.2.2 hmem (List.mem_cons_self _ _)
  have hn₂ : n ∉ keysOf cs₂ := by
    have := hnd.2.1
    rw [List.nodup_cons] at this
    exact this.1
  have hd₂₁ : ∀ m, m ∈ keysOf cs₂ → m ∉ keysOf cs₁ := fun m hm₂ hm₁ =>
    hnd.2.2 hm₁ (List.mem_cons_of_mem _ hm₂)
  have hmem₁ : ∀ m, m ∈ keysOf cs₁ →
      m ∈ keysOf (cs₁ ++ (n, FSEntry.dir false bcs) :: cs₂) := by
    intro m hm
    rw [hkeys]
    exact List.mem_append.mpr (Or.inl hm)
  have hmemn : n ∈ keysOf (cs₁ ++ (n, FSEntry.dir false bcs) :: cs₂) := by
    rw [hkeys]
    exact List.mem_append.mpr (Or.inr (List.mem_cons_self _ _))
  have hmem₂ : ∀ m, m ∈ keysOf cs₂ →
      m ∈ keysOf (cs₁ ++ (n, FSEntry.dir false bcs) :: cs₂) := by
    intro m hm
    rw [hkeys]
    exact List.mem_append.mpr (Or.inr (List.mem_cons_of_mem _ hm))
  rw [copy_items_append]
  rw [copy_items_wf cs₁ dest st h₁ (fun m hm => hdisj m (hmem₁ m hm))]
  rw [copy_items_cons_dir']
  have hlk : lookupKey (dest ++ cs₁) n = none := by
    rw [lookupKey_append, hdisj n hmemn]
    have : lookupKey cs₁ n = none := (lookupKey_eq_none_iff cs₁ n).mpr hn₁
    rw [this]
    rfl
  have e₂ : copy_folder_tree n false bcs (dest ++ cs₁) (addCopied st cs₁) =
      ((dest ++ cs₁) ++ [(n, FSEntry.dir true [])],
        { addCopied st cs₁ with
            folders_copied := (addCopied st cs₁).folders_copied + 1,
            errors := (addCopied st cs₁).errors + 1 }) := by
    unfold copy_folder_tree
    rw [hlk]
    simp
  rw [e₂]
  rw [copy_items_wf cs₂ _ _ h₂ ?hdisj₂]
  case hdisj₂ =>
    intro m hm
    rw [lookupKey_append, lookupKey_append, hdisj m (hmem₂ m hm)]
    have hx : lookupKey cs₁ m = none :=
      (lookupKey_eq_none_iff cs₁ m).mpr (hd₂₁ m hm)
    rw [hx]
    have hne : ¬ (n = m) := fun he => hn₂ (he ▸ hm)
    simp [lookupKey, hne]
  obtain ⟨s₁, s₂, s₃, s₄, s₅, s₆⟩ := st
  simp [addCopied, List.append_assoc]

/-- Witness for C7: two readable one-file sibling directories around one
inaccessible directory; everything else is copied and exactly one error
is counted. -/
theorem c7_error_isolation_witness :
    copy_items
      [(['a'], FSEntry.dir true [(['x'], FSEntry.file true [1])]),
       (['b'], FSEntry.dir false [(['z'], FSEntry.file true [3])]),
       (['c'], FSEntry.dir true [(['y'], FSEntry.file true [2])])]
      [] Stats.zero =
      (([] ++ [(['a'], FSEntry.dir true [(['x'], FSEntry.file true [1])])]) ++
        (['b'], FSEntry.dir true []) ::
          [(['c'], FSEntry.dir true [(['y'], FSEntry.file true [2])])],
        { Stats.zero with
            files_copied := Stats.zero.files_copied +
              countFilesList [(['a'], FSEntry.dir true
                [(['x'], FSEntry.file true [1])])] +
              countFilesList [(['c'], FSEntry.dir true
                [(['y'], FSEntry.file true [2])])],
            folders_copied := Stats.zero.folders_copied +
              countDirsList [(['a'], FSEntry.dir true
                [(['x'], FSEntry.file true [1])])] + 1 +
              countDirsList [(['c'], FSEntry.dir true
                [(['y'], FSEntry.file true [2])])],
            errors := Stats.zero.errors + 1 }) :=
  c7_error_isolation ['b'] [(['z'], FSEntry.file true [3])]
    [(['a'], FSEntry.dir true [(['x'], FSEntry.file true [1])])]
    [(['c'], FSEntry.dir true [(['y'], FSEntry.file true [2])])]
    [] Stats.zero
    (by simp [wfList, keysOf])
    (by simp [wfList, keysOf])
    (by simp [keysOf])
    (fun m _ => rfl)

end FC
